import Mathlib

/-!
# Charm store: blob backend and search-index lifecycle

A shallow embedding of `internal/blobstore/swift.go` (the Swift blob backend:
`Get`, `Put`, `Remove`) and of the index-version protocol exercised by
`internal/charmstore/search_test.go` (`getCurrentVersion`, `updateVersion`,
`newIndex`, `ensureIndexes`).

The Swift client (`gopkg.in/goose.v2/swift`) is a library outside the
repository: it is a parameter of the embedding, a record of three operations
acting on an arbitrary container state.  Every call of the backend is
recorded, so that "a delete is attempted" and "no delete is issued" are
statements about the result.
-/

namespace Charmstore

/-! ## Errors -/

/-- Error codes carried by errors of the goose client library. -/
inductive Code
  | UnspecifiedError
  | NotFoundError
  | DuplicateValueError
  | TimeoutError
  | UnauthorisedError
  | NotImplementedError
  deriving DecidableEq, Repr

/-- An error value handed back by the Swift client: a goose error with its
code, or any other error value (a transport error, say). -/
inductive ClientError
  | goose (code : Code) (msg : String)
  | other (msg : String)
  deriving DecidableEq, Repr

/-- The goose test `errors.IsNotFound`: the error is a goose error whose code
is `NotFoundError`. -/
def errors.IsNotFound : ClientError → Bool
  | .goose code _ => decide (code = Code.NotFoundError)
  | .other _ => false

/-- The two ways `strconv` rejects a number. -/
inductive NumErrKind
  | ErrSyntax
  | ErrRange
  deriving DecidableEq, Repr

/-- Error values that are not built by errgo: an error of the client, a
`*strconv.NumError`, and the package sentinel `ErrNotFound`. -/
inductive BaseError
  | client (e : ClientError)
  | numError (num : String) (kind : NumErrKind)
  | ErrNotFound
  deriving DecidableEq, Repr

/-- An `*errgo.Err`: a message, the cause it exposes (if any) and the error it
wraps (if any). -/
structure ErrgoErr where
  Message_ : String
  Cause_ : Option BaseError
  Underlying_ : Option BaseError
  deriving DecidableEq, Repr

/-- The Go `error` values the backend can return. -/
inductive Error
  | base (b : BaseError)
  | errgo (e : ErrgoErr)
  deriving DecidableEq, Repr

/-- The sentinel `ErrNotFound` of the blobstore package, as an `error`. -/
def ErrNotFound : Error := .base .ErrNotFound

/-- The call `errgo.New(s)`: a fresh error with a message, no cause and
nothing wrapped. -/
def errgo.New (s : String) : Error :=
  .errgo { Message_ := s, Cause_ := none, Underlying_ := none }

/-- The call `errgo.WithCausef(underlying, cause, "")`: wraps `underlying` and
exposes `cause`. -/
def errgo.WithCausef (underlying : ClientError) (cause : BaseError) (msg : String) : Error :=
  .errgo { Message_ := msg, Cause_ := some cause, Underlying_ := some (.client underlying) }

/-- The call `errgo.Mask(err)` on a non-nil error: wraps `err` and hides its
cause (no pass function is given, so `Cause_` stays nil). -/
def errgo.Mask (underlying : ClientError) : Error :=
  .errgo { Message_ := "", Cause_ := none, Underlying_ := some (.client underlying) }

/-- The function `errgo.Cause`: the cause an errgo error exposes when it has
one, the error itself otherwise.  (The cause a goose error may carry is another
error of the client library, never a sentinel of this package; it is not
modelled, and `Cause` of a client error is that error.) -/
def errgo.Cause : Error → Error
  | .errgo e =>
    match e.Cause_ with
    | some c => .base c
    | none => .errgo e
  | .base b => .base b

/-- The error wraps the given backend error: it is an errgo error whose
underlying error is that backend error. -/
def Error.wraps (err : Error) (backend : ClientError) : Prop :=
  ∃ e : ErrgoErr, err = .errgo e ∧ e.Underlying_ = some (.client backend)

/-! ## Bytes, digests, headers, `strconv.ParseInt` -/

/-- A byte of a blob. -/
abbrev Byte := UInt8

/-- The verb `%x` of `fmt.Sprintf` on a byte slice: two lower-case hexadecimal
digits per byte. -/
def hexOf (bs : List Byte) : String :=
  String.mk (bs.flatMap fun b => [Nat.digitChar (b.toNat / 16), Nat.digitChar (b.toNat % 16)])

/-- An `http.Header`: keys with their values. -/
abbrev Header := List (String × List String)

/-- The method `Header.Get`: the first value of the key, `""` when there is
none. -/
def Header.Get (h : Header) (key : String) : String :=
  match h.lookup key with
  | some (v :: _) => v
  | _ => ""

/-- Largest `uint64`. -/
def maxUint64 : Nat := 2 ^ 64 - 1

/-- The digit loop of `strconv.ParseUint(s, 10, 64)`: the value read so far is
`n`.  A character that is no decimal digit is a syntax error (value 0); a
value that leaves `uint64` is a range error (value `maxUint64`). -/
def strconv.parseUintLoop : List Char → Nat → Nat × Option NumErrKind
  | [], n => (n, none)
  | c :: cs, n =>
    if '0' ≤ c ∧ c ≤ '9' then
      if n ≥ maxUint64 / 10 + 1 then (maxUint64, some .ErrRange)
      else
        let n1 := n * 10 + (c.toNat - '0'.toNat)
        if n1 > maxUint64 then (maxUint64, some .ErrRange)
        else strconv.parseUintLoop cs n1
    else (0, some .ErrSyntax)

/-- The call `strconv.ParseUint(s, 10, 64)` on the characters of `s`. -/
def strconv.ParseUint (s : List Char) : Nat × Option NumErrKind :=
  match s with
  | [] => (0, some .ErrSyntax)
  | _ => strconv.parseUintLoop s 0

/-- The call `strconv.ParseInt(s, 10, 64)`: the value and the error, as Go
returns both. -/
def strconv.ParseInt (s : String) : Int × Option Error :=
  match s.toList with
  | [] => (0, some (.base (.numError s .ErrSyntax)))
  | c :: cs =>
    let neg := c == '-'
    let body := if c == '+' || c == '-' then cs else c :: cs
    match strconv.ParseUint body with
    | (_, some .ErrSyntax) => (0, some (.base (.numError s .ErrSyntax)))
    | (un, _) =>
      if !neg && decide (un ≥ 2 ^ 63) then (2 ^ 63 - 1, some (.base (.numError s .ErrRange)))
      else if neg && decide (un > 2 ^ 63) then (-(2 ^ 63), some (.base (.numError s .ErrRange)))
      else (if neg then -(un : Int) else (un : Int), none)

/-! ## The Swift client and the backend -/

/-- What `PutReader` did: the container afterwards, how many bytes it read from
the reader it was given, and its error. -/
structure PutReaderResult (σ : Type) where
  state : σ
  consumed : Nat
  err : Option ClientError

/-- The operations of `*swift.Client` the backend uses, on a container state
`σ`.  `GetReadSeeker` yields the object's bytes and the response headers. -/
structure SwiftClient (σ : Type) where
  GetReadSeeker : σ → String → String → Except ClientError (List Byte × Header)
  PutReader : σ → String → String → List Byte → Int → PutReaderResult σ
  DeleteObject : σ → String → String → σ × Option ClientError

/-- The type `swiftBackend`: a client and the name of the container. -/
structure swiftBackend (σ : Type) where
  client : SwiftClient σ
  container : String

/-- A request the backend sent to the client. -/
inductive ClientCall
  | GetReadSeeker (container name : String)
  | PutReader (container name : String) (size : Int)
  | DeleteObject (container name : String)
  deriving DecidableEq, Repr

/-- Result of `Get`: the stream (nil on failure), the size, the error. -/
structure GetResult where
  r : Option (List Byte)
  size : Int
  err : Option Error
  deriving DecidableEq

/-- Result of `Put` or `Remove`: the container afterwards, the returned error,
the requests sent to the client in order, and the lines logged. -/
structure OpResult (σ : Type) where
  state : σ
  err : Option Error
  calls : List ClientCall
  logged : List String

/-- The method `swiftBackend.Get`. -/
def swiftBackend.Get {σ : Type} (s : swiftBackend σ) (st : σ) (name : String) : GetResult :=
  match s.client.GetReadSeeker st s.container name with
  | .error err =>
    if errors.IsNotFound err then
      { r := none, size := 0, err := some (errgo.WithCausef err .ErrNotFound "") }
    else
      { r := none, size := 0, err := some (errgo.Mask err) }
  | .ok (r2, headers) =>
    let lengthstr := headers.Get "Content-Length"
    let p := strconv.ParseInt lengthstr
    { r := some r2, size := p.1, err := p.2 }

/-- The method `swiftBackend.Put`.  `NewHash` stands for the hash of the
package (`NewHash()`, declared outside the given sources): it maps the bytes
written to the hash to the digest `Sum(nil)` returns.  The tee reader writes
to the hash exactly the bytes the client read. -/
def swiftBackend.Put {σ : Type} (NewHash : List Byte → List Byte) (s : swiftBackend σ) (st : σ)
    (name : String) (r : List Byte) (size : Int) (hash : String) : OpResult σ :=
  let w := s.client.PutReader st s.container name r size
  match w.err with
  | some err =>
    { state := w.state, err := some (.base (.client err)),
      calls := [.PutReader s.container name size], logged := [] }
  | none =>
    if hash ≠ hexOf (NewHash (r.take w.consumed)) then
      let d := s.client.DeleteObject w.state s.container name
      { state := d.1, err := some (errgo.New "hash mismatch"),
        calls := [.PutReader s.container name size, .DeleteObject s.container name],
        logged :=
          match d.2 with
          | some _ =>
            ["could not delete object from container after a hash mismatch was detected"]
          | none => [] }
    else
      { state := w.state, err := none,
        calls := [.PutReader s.container name size], logged := [] }

/-- The method `swiftBackend.Remove`. -/
def swiftBackend.Remove {σ : Type} (s : swiftBackend σ) (st : σ) (name : String) : OpResult σ :=
  let d := s.client.DeleteObject st s.container name
  match d.2 with
  | some err =>
    if errors.IsNotFound err then
      { state := d.1, err := some (errgo.WithCausef err .ErrNotFound ""),
        calls := [.DeleteObject s.container name], logged := [] }
    else
      { state := d.1, err := some (.base (.client err)),
        calls := [.DeleteObject s.container name], logged := [] }
  | none =>
    { state := d.1, err := none, calls := [.DeleteObject s.container name], logged := [] }

/-! ## Concrete clients -/

/-- A container kept in memory: the objects, keyed by container and name. -/
abbrev MemContainer := List ((String × String) × List Byte)

/-- A Swift client over a container kept in memory.  `PutReader` reads the
whole reader; it stores the object when the announced size is the number of
bytes read and fails otherwise, as an HTTP transport does on a wrong
`Content-Length`.  A missing object is a goose `NotFoundError`. -/
def memClient : SwiftClient MemContainer where
  GetReadSeeker st ctr name :=
    match st.lookup (ctr, name) with
    | some bs => .ok (bs, [("Content-Length", [toString bs.length])])
    | none => .error (.goose .NotFoundError "object not found")
  PutReader st ctr name r size :=
    if size = (r.length : Int) then
      { state := ((ctr, name), r) :: st.filter (fun e => e.1 ≠ (ctr, name)),
        consumed := r.length, err := none }
    else
      { state := st, consumed := r.length,
        err := some (.other "http: ContentLength with wrong Body length") }
  DeleteObject st ctr name :=
    match st.lookup (ctr, name) with
    | some _ => (st.filter (fun e => e.1 ≠ (ctr, name)), none)
    | none => (st, some (.goose .NotFoundError "object not found"))

/-- The in-memory client with a delete that is always refused. -/
def memClientNoDelete : SwiftClient MemContainer :=
  { memClient with
    DeleteObject := fun st _ _ => (st, some (.goose .UnauthorisedError "delete refused")) }

/-- A client on which every request fails with the given error and nothing is
stored. -/
def failingClient (e : ClientError) : SwiftClient Unit where
  GetReadSeeker _ _ _ := .error e
  PutReader _ _ _ _ _ := { state := (), consumed := 0, err := some e }
  DeleteObject _ _ _ := ((), some e)

/-- A toy digest for concrete runs: the sum of the bytes modulo 256, and the
number of bytes modulo 256. -/
def sumHash (bs : List Byte) : List Byte :=
  [UInt8.ofNat ((bs.map UInt8.toNat).sum % 256), UInt8.ofNat (bs.length % 256)]

/-! ## Contracts of an object store

The round-trip properties of the backend rest on the client being an object
store.  The two facts needed are stated at the request at hand. -/

/-- The client stores what it read: when this `PutReader` succeeds, reading
the name back yields exactly the bytes the client consumed, with a
`Content-Length` header that states their number. -/
def StoresWhatItRead {σ : Type} (c : SwiftClient σ) (st : σ) (container name : String)
    (r : List Byte) (size : Int) : Prop :=
  let w := c.PutReader st container name r size
  w.err = none →
    ∃ headers : Header,
      c.GetReadSeeker w.state container name = .ok (r.take w.consumed, headers) ∧
      strconv.ParseInt (headers.Get "Content-Length") = (((r.take w.consumed).length : Int), none)

/-- A delete that succeeds removes the object: reading the name back in the
state after this `DeleteObject` fails with a not-found error. -/
def DeleteRemoves {σ : Type} (c : SwiftClient σ) (st : σ) (container name : String) : Prop :=
  (c.DeleteObject st container name).2 = none →
    ∃ e : ClientError,
      c.GetReadSeeker (c.DeleteObject st container name).1 container name = .error e ∧
      errors.IsNotFound e = true

/-! ## The index-version store and `ensureIndexes`

The functions `getCurrentVersion`, `updateVersion`, `newIndex` and
`ensureIndexes` live in `internal/charmstore/search.go`, which is not among
the sources at hand; only their tests are.  They are modelled from the
specification (sections 4.2, 4.3 and 6), over a model of the external
document and search store for one alias. -/

/-- Modelled from the spec: the type `version` of `search.go` (section 3),
used by the tests as `version{1, index}` and `version{}`: the generation
counter and the name of the live physical index. -/
structure version where
  count : Nat
  indexName : String
  deriving DecidableEq, Repr

/-- Modelled from the spec: the errors of the index lifecycle (sections 4.3
and 7): an opaque failure of the store, or contention once the retry bound is
exhausted. -/
inductive IndexError
  | store (msg : String)
  | contention
  deriving DecidableEq, Repr

/-- Modelled from the spec: the external document and search store as seen
through one alias (sections 3 and 6).  `doc` is the version metadata document
with its revision (absent on a pristine alias), `indexes` the physical indexes
that exist, `aliased` the physical indexes the alias maps to
(`ListIndexesForAlias`), `provisioned` the number of physical indexes
provisioned so far, from which fresh names are drawn. -/
structure Store where
  aliasName : String
  doc : Option (version × Nat)
  indexes : List String
  aliased : List String
  provisioned : Nat
  deriving DecidableEq, Repr

/-- Modelled from the spec: a pristine alias (section 3): no version document,
no physical index, nothing mapped. -/
def Store.pristine (aliasName : String) : Store :=
  { aliasName := aliasName, doc := none, indexes := [], aliased := [], provisioned := 0 }

/-- Modelled from the spec: the revision of the version document, 0 when the
document is absent (section 3, documentVersion). -/
def Store.revision (s : Store) : Nat :=
  match s.doc with
  | none => 0
  | some (_, rev) => rev

/-- Modelled from the spec: the stored version, the zero version when the
document is absent (section 3). -/
def Store.stored (s : Store) : version :=
  match s.doc with
  | none => { count := 0, indexName := "" }
  | some (v, _) => v

/-- Modelled from the spec: the primitive list-physical-indexes-for-alias
(section 6), the call `ListIndexesForAlias` of the tests. -/
def Store.ListIndexesForAlias (s : Store) : List String := s.aliased

/-- Modelled from the spec: the outcome of the transport for the successive
requests sent to the store (section 4.2, "any other failure"): `none` when the
request is answered, `some msg` when it fails.  An exhausted list answers every
request. -/
abbrev Faults := List (Option String)

/-- Modelled from the spec: the outcome of the transport for the next request,
and the outcomes that remain for the requests after it. -/
def Faults.next : Faults → Option String × Faults
  | [] => (none, [])
  | f :: fs => (f, fs)

/-- Modelled from the spec: `getCurrentVersion` (section 4.2): reads the
metadata document of the alias; when it is absent the result is the zero
version with revision 0 and no error. -/
def getCurrentVersion (fault : Option String) (s : Store) : version × Nat × Option IndexError :=
  match fault with
  | some msg => ({ count := 0, indexName := "" }, 0, some (.store msg))
  | none =>
    match s.doc with
    | none => ({ count := 0, indexName := "" }, 0, none)
    | some (v, rev) => (v, rev, none)

/-- Modelled from the spec: `updateVersion` (section 4.2): a conditional write
that succeeds only if the current revision of the document equals the expected
one; each successful write increments the revision (section 3).  A revision
mismatch is `(false, nil)`; any other failure is `(false, error)`. -/
def updateVersion (fault : Option String) (s : Store) (v : version) (dv : Nat) :
    Store × Bool × Option IndexError :=
  match fault with
  | some msg => (s, false, some (.store msg))
  | none =>
    if dv = s.revision then ({ s with doc := some (v, s.revision + 1) }, true, none)
    else (s, false, none)

/-- Modelled from the spec: the serial number in the name of a physical index
(section 8, `"charms-000001"`), as `%06d` prints it: decimal, padded with zeros
to six digits. -/
def serial (n : Nat) : List Char :=
  List.replicate (6 - (Nat.toDigits 10 n).length) '0' ++ Nat.toDigits 10 n

/-- Modelled from the spec: the name of the `n`-th physical index provisioned
for an alias (section 8: alias `"charms"` gives `"charms-000001"`,
`"charms-000002"`). -/
def indexNameFor (aliasName : String) (n : Nat) : String :=
  aliasName ++ "-" ++ String.mk (serial n)

/-- Modelled from the spec: `newIndex` (section 4.2): provisions an empty
physical index under a fresh name and does not touch the alias; a failure is
an error and leaves nothing behind. -/
def newIndex (fault : Option String) (s : Store) : Store × String × Option IndexError :=
  match fault with
  | some msg => (s, "", some (.store msg))
  | none =>
    let name := indexNameFor s.aliasName (s.provisioned + 1)
    ({ s with indexes := s.indexes ++ [name], provisioned := s.provisioned + 1 }, name, none)

/-- Modelled from the spec: the primitive delete-physical-index (section 6); a
deleted index is no longer mapped by the alias. -/
def DeleteIndex (fault : Option String) (s : Store) (name : String) : Store × Option IndexError :=
  match fault with
  | some msg => (s, some (.store msg))
  | none =>
    ({ s with indexes := s.indexes.filter (fun n => n ≠ name),
              aliased := s.aliased.filter (fun n => n ≠ name) }, none)

/-- Modelled from the spec: the primitive atomic-retarget-alias (section 6):
in one step the alias stops mapping the previous physical index (if any) and
maps the candidate. -/
def retargetAlias (s : Store) (previous candidate : String) : Store :=
  { s with aliased := s.aliased.filter (fun n => n ≠ previous) ++ [candidate] }

/-- Modelled from the spec: `ensureIndexes(force)` (section 4.3, steps 1 to 7)
with `retries` retries left.  The spec does not say what follows a failed read
at step 1 or a failed provisioning at step 3: the error is returned.  Cleanup
deletes are best effort: their errors are dropped (section 7). -/
def ensureIndexesLoop (force : Bool) : Nat → Faults → Store → Store × Option IndexError
  | retries, faults, s =>
    match getCurrentVersion faults.next.1 s with
    | (_, _, some err) => (s, some err)
    | (v, dv, none) =>
      if !force && decide (v.indexName ≠ "") && decide (v.indexName ∈ s.indexes) then (s, none)
      else
        let faults := faults.next.2
        match newIndex faults.next.1 s with
        | (s, _, some err) => (s, some err)
        | (s, candidate, none) =>
          let faults := faults.next.2
          match updateVersion faults.next.1 s { count := v.count + 1, indexName := candidate } dv with
          | (s, _, some err) =>
            ((DeleteIndex faults.next.2.next.1 s candidate).1, some err)
          | (s, false, none) =>
            let s := (DeleteIndex faults.next.2.next.1 s candidate).1
            match retries with
            | 0 => (s, some .contention)
            | n + 1 => ensureIndexesLoop force n faults.next.2.next.2 s
          | (s, true, none) =>
            let s := retargetAlias s v.indexName candidate
            if v.indexName ≠ "" then ((DeleteIndex faults.next.2.next.1 s v.indexName).1, none)
            else (s, none)

/-- Modelled from the spec: `ensureIndexes(force)` with the retry bound of the
deployment (a configurable ceiling, section 9). -/
def ensureIndexes (retryBound : Nat) (force : Bool) (faults : Faults) (s : Store) :
    Store × Option IndexError :=
  ensureIndexesLoop force retryBound faults s

/-- The number a string of decimal digits denotes. -/
def readDecimal (cs : List Char) : Nat :=
  cs.foldl (fun a c => a * 10 + (c.toNat - 48)) 0

/-- A settled store, as between two calls of `ensureIndexes`: every physical
index that exists was provisioned by `newIndex` for this alias, so was the
index the version document names (if it names one), and the alias maps exactly
the physical index the version document names when that index exists, nothing
otherwise. -/
def Store.Settled (s : Store) : Prop :=
  (∀ n ∈ s.indexes, ∃ k, k ≤ s.provisioned ∧ n = indexNameFor s.aliasName k) ∧
  (s.stored.indexName ≠ "" →
    ∃ k, k ≤ s.provisioned ∧ s.stored.indexName = indexNameFor s.aliasName k) ∧
  s.aliased = if s.stored.indexName ∈ s.indexes then [s.stored.indexName] else []

/-- The store after a promotion won by a caller that ran alone: the candidate
is provisioned, the version document names it, the alias is retargeted and the
previous physical index (if any) is deleted. -/
def Store.promoted (s : Store) : Store :=
  let candidate := indexNameFor s.aliasName (s.provisioned + 1)
  let s1 : Store :=
    { s with
      indexes := s.indexes ++ [candidate]
      provisioned := s.provisioned + 1
      doc := some ({ count := s.stored.count + 1, indexName := candidate }, s.revision + 1)
      aliased := s.aliased.filter (fun n => n ≠ s.stored.indexName) ++ [candidate] }
  if s.stored.indexName ≠ "" then (DeleteIndex none s1 s.stored.indexName).1 else s1

/-! ## Concurrent callers of `ensureIndexes`

Several callers run the protocol of section 4.3 against one store.  The only
shared state is the store; each request to it (read the version document, look
up a physical index, provision, conditional write, retarget, delete) is one
atomic step, and the steps of different callers interleave in any order. -/

/-- Modelled from the spec: where one caller of `ensureIndexes` stands in the
protocol of section 4.3, with the values it holds: about to read the version
(step 1), to look up the index the version names (step 2), to provision a
candidate (step 3), to issue the conditional write (step 4), to delete the
candidate after a failed write (step 5) or after a lost race (step 6), to
retarget the alias and then delete the previous index (step 7), or returned
with its result. -/
inductive Caller
  | read (retries : Nat)
  | check (retries : Nat) (v : version) (dv : Nat)
  | create (retries : Nat) (v : version) (dv : Nat)
  | cas (retries : Nat) (v : version) (dv : Nat) (candidate : String)
  | dropFailed (candidate : String) (err : IndexError)
  | dropOrphan (retries : Nat) (candidate : String)
  | retarget (v : version) (candidate : String)
  | dropPrevious (previous : String)
  | done (err : Option IndexError)
  deriving DecidableEq, Repr

/-- The caller has returned. -/
def Caller.isDone : Caller → Bool
  | .done _ => true
  | _ => false

/-- The candidate index a caller has provisioned and still answers for. -/
def Caller.candidate : Caller → Option String
  | .cas _ _ _ candidate => some candidate
  | .dropFailed candidate _ => some candidate
  | .dropOrphan _ candidate => some candidate
  | .retarget _ candidate => some candidate
  | _ => none

/-- Modelled from the spec: one request of a caller of `ensureIndexes(force)`
against the store (section 4.3), the same protocol as `ensureIndexesLoop` cut
at its requests.  `fault` is the outcome of the transport for this request. -/
def Caller.step (force : Bool) (fault : Option String) (s : Store) : Caller → Store × Caller
  | .read retries =>
    match getCurrentVersion fault s with
    | (_, _, some err) => (s, .done (some err))
    | (v, dv, none) =>
      if !force && decide (v.indexName ≠ "") then (s, .check retries v dv)
      else (s, .create retries v dv)
  | .check retries v dv =>
    if v.indexName ∈ s.indexes then (s, .done none) else (s, .create retries v dv)
  | .create retries v dv =>
    match newIndex fault s with
    | (s, _, some err) => (s, .done (some err))
    | (s, candidate, none) => (s, .cas retries v dv candidate)
  | .cas retries v dv candidate =>
    match updateVersion fault s { count := v.count + 1, indexName := candidate } dv with
    | (s, _, some err) => (s, .dropFailed candidate err)
    | (s, false, none) => (s, .dropOrphan retries candidate)
    | (s, true, none) => (s, .retarget v candidate)
  | .dropFailed candidate err => ((DeleteIndex fault s candidate).1, .done (some err))
  | .dropOrphan retries candidate =>
    match retries with
    | 0 => ((DeleteIndex fault s candidate).1, .done (some .contention))
    | n + 1 => ((DeleteIndex fault s candidate).1, .read n)
  | .retarget v candidate =>
    if v.indexName ≠ "" then (retargetAlias s v.indexName candidate, .dropPrevious v.indexName)
    else (retargetAlias s v.indexName candidate, .done none)
  | .dropPrevious previous => ((DeleteIndex fault s previous).1, .done none)
  | .done err => (s, .done err)

/-- A bound on the requests a caller still sends before it returns. -/
def Caller.stepsLeft : Caller → Nat
  | .read retries => 5 * retries + 7
  | .check retries _ _ => 5 * retries + 6
  | .create retries _ _ => 5 * retries + 5
  | .cas retries _ _ _ => 5 * retries + 4
  | .dropOrphan retries _ => 5 * retries + 3
  | .retarget _ _ => 2
  | .dropFailed _ _ => 1
  | .dropPrevious _ => 1
  | .done _ => 0

/-- Modelled from the spec: the store and the `N` callers running against it
(section 5: the callers share nothing but the external store). -/
structure Config (N : Nat) where
  store : Store
  callers : Fin N → Caller

/-- Modelled from the spec: `N` calls of `ensureIndexes` have just been made
against the store; each is about to read the version, with the whole retry
bound left (section 5: any number of callers, no lock). -/
def Config.start (N : Nat) (retryBound : Nat) (s : Store) : Config N :=
  { store := s, callers := fun _ => .read retryBound }

/-- Modelled from the spec: caller `i` sends its next request, which the store
serves in one atomic step (section 5); the other callers stay where they
are. -/
def Config.step {N : Nat} (force : Bool) (fault : Option String) (i : Fin N) (c : Config N) :
    Config N :=
  { store := ((c.callers i).step force fault c.store).1
    callers := fun j => if j = i then ((c.callers i).step force fault c.store).2 else c.callers j }

/-- Modelled from the spec: an interleaving (section 5): the callers send
their requests in the order of the schedule, each entry naming the caller that
moves and the outcome of the transport for its request. -/
def Config.run {N : Nat} (force : Bool) : List (Fin N × Option String) → Config N → Config N
  | [], c => c
  | (i, fault) :: rest, c => Config.run force rest (c.step force fault i)

/-- An interleaving in which every request is answered. -/
def Config.runAnswered {N : Nat} (force : Bool) (sched : List (Fin N)) (c : Config N) : Config N :=
  c.run force (sched.map fun i => (i, none))

/-- Every call has returned. -/
def Config.allReturned {N : Nat} (c : Config N) : Prop :=
  ∀ i : Fin N, (c.callers i).isDone = true

/-- A caller that runs alone: it sends `fuel` requests, all answered. -/
def Caller.runAlone (force : Bool) : Nat → Store × Caller → Store × Caller
  | 0, p => p
  | fuel + 1, p => Caller.runAlone force fuel (p.2.step force none p.1)

/-- What holds of a caller of `ensureIndexes(false)` while `N` such callers
race on an alias that was pristine, every request answered: a caller that has
not seen a version document has all its retries left; a caller past the read
that saw a document holds the name of the live index; a candidate on its way
to the conditional write exists and is not the live index; the caller that won
the write is the one that has yet to map the alias; no caller is on an error
path, and a caller that returned, returned success. -/
def Caller.Ok (retryBound : Nat) (s : Store) : Caller → Prop
  | .read retries => s.doc = none → retries = retryBound
  | .check _ v _ => s.doc ≠ none ∧ v.indexName = s.stored.indexName
  | .create retries v dv => retries = retryBound ∧ v = { count := 0, indexName := "" } ∧ dv = 0
  | .cas retries v dv candidate =>
    retries = retryBound ∧ v = { count := 0, indexName := "" } ∧ dv = 0 ∧
      candidate ∈ s.indexes ∧ candidate ≠ s.stored.indexName
  | .dropFailed _ _ => False
  | .dropOrphan retries candidate =>
    retries = retryBound ∧ s.doc ≠ none ∧ candidate ≠ s.stored.indexName
  | .retarget v candidate =>
    v = { count := 0, indexName := "" } ∧ s.doc ≠ none ∧ candidate = s.stored.indexName ∧
      s.aliased = []
  | .dropPrevious _ => False
  | .done err => err = none ∧ s.doc ≠ none

/-- The invariant of `N` callers of `ensureIndexes(false)` racing on an alias
that was pristine.  Every caller is `Ok`; the candidates held were provisioned
by `newIndex` and no two callers hold the same one; and the store is either
still pristine, or holds generation 1 naming a live index `w` that exists,
mapped by the alias or about to be mapped by the caller that won the write. -/
structure Config.Inv {N : Nat} (retryBound : Nat) (c : Config N) : Prop where
  ok : ∀ i, (c.callers i).Ok retryBound c.store
  fresh : ∀ i a, (c.callers i).candidate = some a →
    ∃ k, k ≤ c.store.provisioned ∧ a = indexNameFor c.store.aliasName k
  distinct : ∀ i j a, i ≠ j → (c.callers i).candidate = some a →
    (c.callers j).candidate ≠ some a
  phase : (c.store.doc = none ∧ c.store.aliased = []) ∨
    ∃ w, c.store.doc = some ({ count := 1, indexName := w }, 1) ∧ w ∈ c.store.indexes ∧
      w ≠ "" ∧ (∃ k, k ≤ c.store.provisioned ∧ w = indexNameFor c.store.aliasName k) ∧
      (c.store.aliased = [w] ∨
        (c.store.aliased = [] ∧ ∃ i, c.callers i = .retarget { count := 0, indexName := "" } w))

/-! ## The blob backend: lemmas on the three paths of `Put` -/

section Blob

variable {σ : Type}

theorem Put_of_write_error (NewHash : List Byte → List Byte) (s : swiftBackend σ) (st : σ)
    (name : String) (r : List Byte) (size : Int) (hash : String) (e : ClientError)
    (hw : (s.client.PutReader st s.container name r size).err = some e) :
    s.Put NewHash st name r size hash =
      { state := (s.client.PutReader st s.container name r size).state,
        err := some (.base (.client e)),
        calls := [.PutReader s.container name size], logged := [] } := by
  simp only [swiftBackend.Put, hw]

theorem Put_of_mismatch (NewHash : List Byte → List Byte) (s : swiftBackend σ) (st : σ)
    (name : String) (r : List Byte) (size : Int) (hash : String)
    (hw : (s.client.PutReader st s.container name r size).err = none)
    (hm : hash ≠
      hexOf (NewHash (r.take (s.client.PutReader st s.container name r size).consumed))) :
    s.Put NewHash st name r size hash =
      { state := (s.client.DeleteObject
          (s.client.PutReader st s.container name r size).state s.container name).1,
        err := some (errgo.New "hash mismatch"),
        calls := [.PutReader s.container name size, .DeleteObject s.container name],
        logged :=
          match (s.client.DeleteObject
            (s.client.PutReader st s.container name r size).state s.container name).2 with
          | some _ =>
            ["could not delete object from container after a hash mismatch was detected"]
          | none => [] } := by
  simp only [swiftBackend.Put, hw, hm, ne_eq, not_false_eq_true, if_true]

theorem Put_of_match (NewHash : List Byte → List Byte) (s : swiftBackend σ) (st : σ)
    (name : String) (r : List Byte) (size : Int) (hash : String)
    (hw : (s.client.PutReader st s.container name r size).err = none)
    (hm : hash =
      hexOf (NewHash (r.take (s.client.PutReader st s.container name r size).consumed))) :
    s.Put NewHash st name r size hash =
      { state := (s.client.PutReader st s.container name r size).state, err := none,
        calls := [.PutReader s.container name size], logged := [] } := by
  simp only [swiftBackend.Put, hw, ← hm, ne_eq, not_true_eq_false, if_false]

/-- A `Put` that returns no error went through a successful write and found
the digest of the bytes read equal to the hash supplied. -/
theorem Put_ok_inv (NewHash : List Byte → List Byte) (s : swiftBackend σ) (st : σ)
    (name : String) (r : List Byte) (size : Int) (hash : String)
    (hput : (s.Put NewHash st name r size hash).err = none) :
    (s.client.PutReader st s.container name r size).err = none ∧
    hash = hexOf (NewHash (r.take (s.client.PutReader st s.container name r size).consumed)) := by
  cases hw : (s.client.PutReader st s.container name r size).err with
  | some e =>
    rw [Put_of_write_error NewHash s st name r size hash e hw] at hput
    simp at hput
  | none =>
    refine ⟨rfl, ?_⟩
    by_contra hm
    rw [Put_of_mismatch NewHash s st name r size hash hw hm] at hput
    simp at hput

theorem Get_of_client_error (s : swiftBackend σ) (st : σ) (name : String) (e : ClientError)
    (hg : s.client.GetReadSeeker st s.container name = .error e) :
    s.Get st name =
      if errors.IsNotFound e then
        { r := none, size := 0, err := some (errgo.WithCausef e .ErrNotFound "") }
      else { r := none, size := 0, err := some (errgo.Mask e) } := by
  simp only [swiftBackend.Get, hg]

theorem Get_of_client_ok (s : swiftBackend σ) (st : σ) (name : String) (r2 : List Byte)
    (headers : Header) (hg : s.client.GetReadSeeker st s.container name = .ok (r2, headers)) :
    s.Get st name =
      { r := some r2, size := (strconv.ParseInt (headers.Get "Content-Length")).1,
        err := (strconv.ParseInt (headers.Get "Content-Length")).2 } := by
  simp only [swiftBackend.Get, hg]

theorem Cause_WithCausef (e : ClientError) :
    errgo.Cause (errgo.WithCausef e .ErrNotFound "") = ErrNotFound := rfl

theorem Cause_Mask_ne (e : ClientError) : errgo.Cause (errgo.Mask e) ≠ ErrNotFound := by
  simp [errgo.Cause, errgo.Mask, ErrNotFound]

theorem Cause_client_ne (e : ClientError) : errgo.Cause (.base (.client e)) ≠ ErrNotFound := by
  simp [errgo.Cause, ErrNotFound]

theorem Cause_New_ne (msg : String) : errgo.Cause (errgo.New msg) ≠ ErrNotFound := by
  simp [errgo.Cause, errgo.New, ErrNotFound]

/-! ## The blob backend: the claims -/

/-- C1. If `Put(name, r, size, h)` returns no error and `h` is the hex digest
of the bytes of `r`, then `Get(name)` on the resulting container returns no
error and a stream whose hex digest is `h`.  The client is an object store at
this request: it stores what it read (`StoresWhatItRead`). -/
theorem Put_then_Get_digest (NewHash : List Byte → List Byte) (s : swiftBackend σ) (st : σ)
    (name : String) (r : List Byte) (size : Int) (h : String)
    (hstore : StoresWhatItRead s.client st s.container name r size)
    (hput : (s.Put NewHash st name r size h).err = none)
    (_hh : h = hexOf (NewHash r)) :
    ∃ stream : List Byte,
      (s.Get (s.Put NewHash st name r size h).state name).err = none ∧
      (s.Get (s.Put NewHash st name r size h).state name).r = some stream ∧
      hexOf (NewHash stream) = h := by
  obtain ⟨hw, hm⟩ := Put_ok_inv NewHash s st name r size h hput
  obtain ⟨headers, hget, hlen⟩ := hstore hw
  rw [Put_of_match NewHash s st name r size h hw hm]
  refine ⟨r.take (s.client.PutReader st s.container name r size).consumed, ?_, ?_, hm.symm⟩
  · rw [Get_of_client_ok s _ name _ headers hget, hlen]
  · rw [Get_of_client_ok s _ name _ headers hget]

/-- C1, at a concrete input: three bytes are put into an empty in-memory
container under their digest and read back. -/
theorem Put_then_Get_digest_witness :
    ∃ stream : List Byte,
      (swiftBackend.Get ⟨memClient, "charms"⟩
        (swiftBackend.Put sumHash ⟨memClient, "charms"⟩ [] "wordpress" [1, 2, 3] 3 "0603").state
        "wordpress").err = none ∧
      (swiftBackend.Get ⟨memClient, "charms"⟩
        (swiftBackend.Put sumHash ⟨memClient, "charms"⟩ [] "wordpress" [1, 2, 3] 3 "0603").state
        "wordpress").r = some stream ∧
      hexOf (sumHash stream) = "0603" :=
  Put_then_Get_digest sumHash ⟨memClient, "charms"⟩ [] "wordpress" [1, 2, 3] 3 "0603"
    (fun _ => ⟨_, rfl, by decide⟩) (by decide) (by decide)

/-- C2. Whatever the container held before (an object under `name` included):
if the write of `Put` completes, the hash supplied differs from the computed
hex digest and the cleanup delete succeeds, then `Get(name)` afterwards
reports not-found: no stream, and an error whose cause is `ErrNotFound`.  The
client is an object store at this request: a successful delete removes the
object (`DeleteRemoves`). -/
theorem Put_mismatch_then_Get_notFound (NewHash : List Byte → List Byte) (s : swiftBackend σ)
    (st : σ) (name : String) (r : List Byte) (size : Int) (h : String)
    (hw : (s.client.PutReader st s.container name r size).err = none)
    (hm : h ≠ hexOf (NewHash (r.take (s.client.PutReader st s.container name r size).consumed)))
    (hd : (s.client.DeleteObject
      (s.client.PutReader st s.container name r size).state s.container name).2 = none)
    (hdel : DeleteRemoves s.client
      (s.client.PutReader st s.container name r size).state s.container name) :
    (s.Get (s.Put NewHash st name r size h).state name).r = none ∧
    ∃ err : Error,
      (s.Get (s.Put NewHash st name r size h).state name).err = some err ∧
      errgo.Cause err = ErrNotFound := by
  obtain ⟨e, hget, hnf⟩ := hdel hd
  rw [Put_of_mismatch NewHash s st name r size h hw hm]
  simp only []
  rw [Get_of_client_error s _ name e hget, hnf]
  exact ⟨rfl, _, rfl, Cause_WithCausef e⟩

/-- C2, at a concrete input: the name already holds an object, new bytes are
put under a wrong hash; afterwards nothing is retrievable under the name. -/
theorem Put_mismatch_then_Get_notFound_witness :
    (swiftBackend.Get ⟨memClient, "charms"⟩
      (swiftBackend.Put sumHash ⟨memClient, "charms"⟩ [(("charms", "wordpress"), [9])]
        "wordpress" [1, 2, 3] 3 "ffff").state "wordpress").r = none ∧
    ∃ err : Error,
      (swiftBackend.Get ⟨memClient, "charms"⟩
        (swiftBackend.Put sumHash ⟨memClient, "charms"⟩ [(("charms", "wordpress"), [9])]
          "wordpress" [1, 2, 3] 3 "ffff").state "wordpress").err = some err ∧
      errgo.Cause err = ErrNotFound :=
  Put_mismatch_then_Get_notFound sumHash ⟨memClient, "charms"⟩ [(("charms", "wordpress"), [9])]
    "wordpress" [1, 2, 3] 3 "ffff" (by decide) (by decide) (by decide)
    (fun _ => ⟨_, rfl, rfl⟩)

/-- C3. When the write of `Put` succeeds and the hash supplied differs from
the computed hex digest, `Put` sends a delete for the same name right after
the write and returns the hash-mismatch error `errgo.New("hash mismatch")`.
The returned error is that same value whether the delete succeeds or fails: a
delete failure is only logged, the returned error is neither the delete's
error nor a wrapping of it. -/
theorem Put_mismatch_deletes_and_reports (NewHash : List Byte → List Byte)
    (s : swiftBackend σ) (st : σ) (name : String) (r : List Byte) (size : Int) (hash : String)
    (hw : (s.client.PutReader st s.container name r size).err = none)
    (hm : hash ≠
      hexOf (NewHash (r.take (s.client.PutReader st s.container name r size).consumed))) :
    (s.Put NewHash st name r size hash).calls =
      [.PutReader s.container name size, .DeleteObject s.container name] ∧
    (s.Put NewHash st name r size hash).state =
      (s.client.DeleteObject
        (s.client.PutReader st s.container name r size).state s.container name).1 ∧
    (s.Put NewHash st name r size hash).err = some (errgo.New "hash mismatch") ∧
    ∀ e : ClientError,
      (s.client.DeleteObject
        (s.client.PutReader st s.container name r size).state s.container name).2 = some e →
      (s.Put NewHash st name r size hash).err ≠ some (.base (.client e)) ∧
      ¬ (errgo.New "hash mismatch").wraps e ∧
      (s.Put NewHash st name r size hash).logged ≠ [] := by
  rw [Put_of_mismatch NewHash s st name r size hash hw hm]
  refine ⟨rfl, rfl, rfl, ?_⟩
  intro e he
  refine ⟨by simp [errgo.New], ?_, by simp [he]⟩
  rintro ⟨w, hw1, hw2⟩
  simp only [errgo.New, Error.errgo.injEq] at hw1
  rw [← hw1] at hw2
  simp at hw2

/-- C3, at a concrete input: the write succeeds, the hash is wrong and the
delete is refused; `Put` still returns the hash-mismatch error. -/
theorem Put_mismatch_deletes_and_reports_witness :
    (swiftBackend.Put sumHash ⟨memClientNoDelete, "charms"⟩ [] "wordpress" [1, 2, 3] 3
      "ffff").calls = [.PutReader "charms" "wordpress" 3, .DeleteObject "charms" "wordpress"] ∧
    (swiftBackend.Put sumHash ⟨memClientNoDelete, "charms"⟩ [] "wordpress" [1, 2, 3] 3
      "ffff").err = some (errgo.New "hash mismatch") ∧
    (memClientNoDelete.DeleteObject
      (memClientNoDelete.PutReader [] "charms" "wordpress" [1, 2, 3] 3).state
      "charms" "wordpress").2 = some (.goose .UnauthorisedError "delete refused") :=
  have h := Put_mismatch_deletes_and_reports sumHash ⟨memClientNoDelete, "charms"⟩ []
    "wordpress" [1, 2, 3] 3 "ffff" (by decide) (by decide)
  ⟨h.1, h.2.2.1, rfl⟩

/-- C4. When the write of `Put` fails with error `e`, `Put` returns exactly
`e` (the client's error value, neither wrapped nor replaced), the only request
sent is the write (no delete), nothing is logged, and the result is the same
for every hash supplied and every digest function: no hash is compared. -/
theorem Put_write_failure_unchanged (s : swiftBackend σ) (st : σ) (name : String)
    (r : List Byte) (size : Int) (e : ClientError)
    (hw : (s.client.PutReader st s.container name r size).err = some e) :
    ∀ (NewHash : List Byte → List Byte) (hash : String),
      (s.Put NewHash st name r size hash).err = some (.base (.client e)) ∧
      (s.Put NewHash st name r size hash).calls = [.PutReader s.container name size] ∧
      ClientCall.DeleteObject s.container name ∉ (s.Put NewHash st name r size hash).calls ∧
      (s.Put NewHash st name r size hash).logged = [] ∧
      (s.Put NewHash st name r size hash).state =
        (s.client.PutReader st s.container name r size).state := by
  intro NewHash hash
  rw [Put_of_write_error NewHash s st name r size hash e hw]
  simp

/-- C4, at a concrete input: the announced size is wrong, the in-memory client
refuses the write, and `Put` hands that error back as it is. -/
theorem Put_write_failure_unchanged_witness :
    (swiftBackend.Put sumHash ⟨memClient, "charms"⟩ [] "wordpress" [1, 2, 3] 5 "0603").err =
      some (.base (.client (.other "http: ContentLength with wrong Body length"))) ∧
    (swiftBackend.Put sumHash ⟨memClient, "charms"⟩ [] "wordpress" [1, 2, 3] 5 "0603").calls =
      [.PutReader "charms" "wordpress" 5] :=
  have h := Put_write_failure_unchanged ⟨memClient, "charms"⟩ [] "wordpress" [1, 2, 3] 5
    (.other "http: ContentLength with wrong Body length") (by decide) sumHash "0603"
  ⟨h.1, h.2.1⟩

/-- The error `strconv.ParseInt` returns, when it returns one, is a
`*strconv.NumError`. -/
theorem ParseInt_err (str : String) :
    (strconv.ParseInt str).2 = none ∨
    ∃ k : NumErrKind, (strconv.ParseInt str).2 = some (.base (.numError str k)) := by
  unfold strconv.ParseInt
  split
  · exact Or.inr ⟨_, rfl⟩
  · simp only []
    split
    · exact Or.inr ⟨_, rfl⟩
    · split
      · exact Or.inr ⟨_, rfl⟩
      · split
        · exact Or.inr ⟨_, rfl⟩
        · exact Or.inl rfl

theorem Remove_of_error (s : swiftBackend σ) (st : σ) (name : String) (e : ClientError)
    (hd : (s.client.DeleteObject st s.container name).2 = some e) :
    (s.Remove st name).err =
      if errors.IsNotFound e then some (errgo.WithCausef e .ErrNotFound "")
      else some (.base (.client e)) := by
  simp only [swiftBackend.Remove, hd]
  split <;> rfl

theorem Remove_of_ok (s : swiftBackend σ) (st : σ) (name : String)
    (hd : (s.client.DeleteObject st s.container name).2 = none) :
    (s.Remove st name).err = none := by
  simp only [swiftBackend.Remove, hd]

/-- C5, as stated, fails for `Put`: the write fails with a goose not-found
error (the container does not exist, say) and `Put` returns that error as it
is; its cause is not `ErrNotFound`. -/
theorem Put_notFound_not_normalized :
    errors.IsNotFound (.goose .NotFoundError "container not found") = true ∧
    ((failingClient (.goose .NotFoundError "container not found")).PutReader ()
      "charms" "wordpress" [1, 2, 3] 3).err = some (.goose .NotFoundError "container not found") ∧
    ∃ err : Error,
      (swiftBackend.Put sumHash ⟨failingClient (.goose .NotFoundError "container not found"),
        "charms"⟩ () "wordpress" [1, 2, 3] 3 "0603").err = some err ∧
      errgo.Cause err ≠ ErrNotFound := by
  refine ⟨rfl, rfl, _, rfl, ?_⟩
  exact Cause_client_ne _

/-- C5, amended.  For `Get` and for `Remove`, on every input, the error
returned has `ErrNotFound` as its cause exactly when the client's request
failed with a not-found error.  `Put` does not normalize: a failed write is
returned as the client's own error, and no error `Put` returns has
`ErrNotFound` as its cause. -/
theorem notFound_normalized_by_Get_and_Remove (NewHash : List Byte → List Byte)
    (s : swiftBackend σ) (st : σ) (name : String) (r : List Byte) (size : Int) (hash : String) :
    ((∃ e : ClientError, s.client.GetReadSeeker st s.container name = .error e ∧
        errors.IsNotFound e = true) ↔
      ∃ err : Error, (s.Get st name).err = some err ∧ errgo.Cause err = ErrNotFound) ∧
    ((∃ e : ClientError, (s.client.DeleteObject st s.container name).2 = some e ∧
        errors.IsNotFound e = true) ↔
      ∃ err : Error, (s.Remove st name).err = some err ∧ errgo.Cause err = ErrNotFound) ∧
    (∀ e : ClientError, (s.client.PutReader st s.container name r size).err = some e →
      (s.Put NewHash st name r size hash).err = some (.base (.client e))) ∧
    (∀ err : Error, (s.Put NewHash st name r size hash).err = some err →
      errgo.Cause err ≠ ErrNotFound) := by
  refine ⟨⟨?_, ?_⟩, ⟨?_, ?_⟩, ?_, ?_⟩
  · rintro ⟨e, hg, hnf⟩
    rw [Get_of_client_error s st name e hg, hnf]
    exact ⟨_, rfl, Cause_WithCausef e⟩
  · rintro ⟨err, herr, hcause⟩
    cases hg : s.client.GetReadSeeker st s.container name with
    | error e =>
      refine ⟨e, rfl, ?_⟩
      rw [Get_of_client_error s st name e hg] at herr
      by_contra hnf
      simp only [hnf] at herr
      simp only [Bool.false_eq_true, if_false, Option.some.injEq] at herr
      exact Cause_Mask_ne e (herr ▸ hcause)
    | ok p =>
      obtain ⟨r2, headers⟩ := p
      rw [Get_of_client_ok s st name r2 headers hg] at herr
      simp only [] at herr
      rcases ParseInt_err (headers.Get "Content-Length") with h | ⟨k, h⟩
      · rw [h] at herr
        simp at herr
      · rw [h] at herr
        simp only [Option.some.injEq] at herr
        subst herr
        simp [errgo.Cause, ErrNotFound] at hcause
  · rintro ⟨e, hd, hnf⟩
    rw [Remove_of_error s st name e hd, hnf]
    exact ⟨_, rfl, Cause_WithCausef e⟩
  · rintro ⟨err, herr, hcause⟩
    cases hd : (s.client.DeleteObject st s.container name).2 with
    | none =>
      rw [Remove_of_ok s st name hd] at herr
      simp at herr
    | some e =>
      refine ⟨e, rfl, ?_⟩
      rw [Remove_of_error s st name e hd] at herr
      by_contra hnf
      simp only [hnf] at herr
      simp only [Bool.false_eq_true, if_false, Option.some.injEq] at herr
      exact Cause_client_ne e (herr ▸ hcause)
  · intro e hw
    rw [Put_of_write_error NewHash s st name r size hash e hw]
  · intro err herr
    cases hw : (s.client.PutReader st s.container name r size).err with
    | some e =>
      rw [Put_of_write_error NewHash s st name r size hash e hw] at herr
      simp only [Option.some.injEq] at herr
      exact herr ▸ Cause_client_ne e
    | none =>
      by_cases hm : hash =
        hexOf (NewHash (r.take (s.client.PutReader st s.container name r size).consumed))
      · rw [Put_of_match NewHash s st name r size hash hw hm] at herr
        simp at herr
      · rw [Put_of_mismatch NewHash s st name r size hash hw hm] at herr
        simp only [Option.some.injEq] at herr
        exact herr ▸ Cause_New_ne _

/-- C6 fails for `Remove`: the delete is refused with an error that is not a
not-found error, and `Remove` returns the client's error itself, not a
wrapping of it, whereas `Get` on the same client returns the error wrapped by
`errgo.Mask`. -/
theorem Remove_returns_backend_error_raw :
    errors.IsNotFound (.goose .UnauthorisedError "access denied") = false ∧
    (swiftBackend.Remove ⟨failingClient (.goose .UnauthorisedError "access denied"), "charms"⟩
      () "wordpress").err = some (.base (.client (.goose .UnauthorisedError "access denied"))) ∧
    ¬ (Error.base (.client (.goose .UnauthorisedError "access denied"))).wraps
      (.goose .UnauthorisedError "access denied") ∧
    (swiftBackend.Get ⟨failingClient (.goose .UnauthorisedError "access denied"), "charms"⟩
      () "wordpress").err = some (errgo.Mask (.goose .UnauthorisedError "access denied")) ∧
    (errgo.Mask (.goose .UnauthorisedError "access denied")).wraps
      (.goose .UnauthorisedError "access denied") := by
  refine ⟨rfl, rfl, ?_, rfl, ⟨_, rfl, rfl⟩⟩
  rintro ⟨w, hw, -⟩
  cases hw

end Blob

/-! ## The index lifecycle: names of physical indexes -/

theorem digitChar_value (d : Nat) (h : d < 10) : (Nat.digitChar d).toNat - 48 = d := by
  interval_cases d <;> rfl

theorem foldl_decimal_init (cs : List Char) (a : Nat) :
    cs.foldl (fun a c => a * 10 + (c.toNat - 48)) a =
      a * 10 ^ cs.length + cs.foldl (fun a c => a * 10 + (c.toNat - 48)) 0 := by
  induction cs generalizing a with
  | nil => simp
  | cons c cs ih =>
    simp only [List.foldl_cons, List.length_cons]
    rw [ih (a * 10 + (c.toNat - 48)), ih (0 * 10 + (c.toNat - 48))]
    ring

theorem readDecimal_cons (c : Char) (cs : List Char) :
    readDecimal (c :: cs) = (c.toNat - 48) * 10 ^ cs.length + readDecimal cs := by
  simp only [readDecimal, List.foldl_cons]
  rw [foldl_decimal_init]
  ring

theorem readDecimal_toDigitsCore (fuel : Nat) :
    ∀ (n : Nat) (acc : List Char), n < fuel →
      readDecimal (Nat.toDigitsCore 10 fuel n acc) = n * 10 ^ acc.length + readDecimal acc := by
  induction fuel with
  | zero => intro n acc h; omega
  | succ fuel ih =>
    intro n acc h
    simp only [Nat.toDigitsCore]
    have hd : (Nat.digitChar (n % 10)).toNat - 48 = n % 10 :=
      digitChar_value _ (Nat.mod_lt _ (by norm_num))
    split
    · rename_i h0
      rw [readDecimal_cons, hd]
      have : n % 10 = n := by omega
      rw [this]
    · rename_i h0
      rw [ih (n / 10) _ (by omega), readDecimal_cons, hd, List.length_cons, pow_succ]
      have hn : n = 10 * (n / 10) + n % 10 := (Nat.div_add_mod n 10).symm
      generalize n / 10 = q at hn ⊢
      generalize n % 10 = t at hn ⊢
      subst hn
      ring

theorem readDecimal_serial (n : Nat) : readDecimal (serial n) = n := by
  have hz : ∀ (k : Nat) (cs : List Char),
      readDecimal (List.replicate k '0' ++ cs) = readDecimal cs := by
    intro k cs
    induction k with
    | zero => simp
    | succ k ih =>
      rw [List.replicate_succ, List.cons_append]
      simp only [readDecimal, List.foldl_cons] at ih ⊢
      exact ih
  rw [serial, hz, Nat.toDigits, readDecimal_toDigitsCore _ _ _ (Nat.lt_succ_self n)]
  simp [readDecimal]

theorem indexNameFor_inj (a : String) (n m : Nat) (h : indexNameFor a n = indexNameFor a m) :
    n = m := by
  have hd := congrArg String.data h
  simp only [indexNameFor, String.data_append, List.append_assoc, List.append_cancel_left_eq] at hd
  rw [← readDecimal_serial n, ← readDecimal_serial m, hd]

theorem indexNameFor_ne_empty (a : String) (n : Nat) : indexNameFor a n ≠ "" := by
  intro h
  have hd := congrArg String.length h
  simp only [indexNameFor, String.length_append] at hd
  have h1 : "-".length = 1 := rfl
  have h0 : "".length = 0 := rfl
  omega


theorem ensureIndexes_run (retryBound : Nat) (force : Bool) (s : Store) :
    ensureIndexes retryBound force [] s =
      if !force && decide (s.stored.indexName ≠ "") && decide (s.stored.indexName ∈ s.indexes)
      then (s, none) else (s.promoted, none) := by
  unfold ensureIndexes ensureIndexesLoop
  cases hdoc : s.doc with
  | none =>
    simp [getCurrentVersion, Faults.next, newIndex, updateVersion, Store.revision, Store.stored,
      Store.promoted, retargetAlias, hdoc]
  | some p =>
    obtain ⟨v, rev⟩ := p
    simp only [getCurrentVersion, Faults.next, newIndex, updateVersion, Store.revision,
      Store.stored, Store.promoted, retargetAlias, hdoc]
    split
    · rfl
    · simp
      split <;> rfl


/-! ## The index lifecycle: a promotion on a settled store -/

theorem pristine_settled (aliasName : String) : (Store.pristine aliasName).Settled := by
  refine ⟨?_, ?_, ?_⟩ <;> simp [Store.pristine, Store.stored]

/-- On a settled store the candidate name differs from the name the version
document holds. -/
theorem candidate_ne_stored (s : Store) (hs : s.Settled) :
    indexNameFor s.aliasName (s.provisioned + 1) ≠ s.stored.indexName := by
  intro h
  by_cases hprev : s.stored.indexName = ""
  · exact indexNameFor_ne_empty _ _ (h.trans hprev)
  · obtain ⟨k, hk, hname⟩ := hs.2.1 hprev
    have := indexNameFor_inj _ _ _ (h.trans hname)
    omega

theorem settled_filter_aliased (s : Store) (hs : s.Settled) :
    s.aliased.filter (fun n => n ≠ s.stored.indexName) = [] := by
  rw [hs.2.2]
  split <;> simp

theorem settled_empty_not_index (s : Store) (hs : s.Settled) : "" ∉ s.indexes := by
  intro h
  obtain ⟨k, -, hname⟩ := hs.1 "" h
  exact indexNameFor_ne_empty _ _ hname.symm

/-- What a promotion leaves behind on a settled store. -/
theorem promoted_facts (s : Store) (hs : s.Settled) :
    s.promoted.aliasName = s.aliasName ∧
    s.promoted.provisioned = s.provisioned + 1 ∧
    s.promoted.doc =
      some ({ count := s.stored.count + 1,
              indexName := indexNameFor s.aliasName (s.provisioned + 1) }, s.revision + 1) ∧
    s.promoted.aliased = [indexNameFor s.aliasName (s.provisioned + 1)] ∧
    s.promoted.indexes =
      s.indexes.filter (fun n => n ≠ s.stored.indexName) ++
        [indexNameFor s.aliasName (s.provisioned + 1)] := by
  have hne := candidate_ne_stored s hs
  have hal := settled_filter_aliased s hs
  by_cases hprev : s.stored.indexName = ""
  · have hidx : s.indexes.filter (fun n => n ≠ s.stored.indexName) = s.indexes := by
      rw [List.filter_eq_self]
      intro n hn
      have : n ≠ "" := fun h => settled_empty_not_index s hs (h ▸ hn)
      simpa [hprev] using this
    simp only [Store.promoted, hprev, ne_eq, not_true_eq_false, if_false]
    rw [hprev] at hal hidx
    simp only [ne_eq, decide_not] at hal hidx
    simp only [decide_not, hal, hidx, List.nil_append, and_self]
  · simp only [Store.promoted, DeleteIndex, ne_eq, hprev, not_false_eq_true, if_true]
    simp only [ne_eq, decide_not] at hal
    simp [hal, List.filter_append, hne]

theorem promoted_settled (s : Store) (hs : s.Settled) : s.promoted.Settled := by
  obtain ⟨ha, hp, hd, hal, hidx⟩ := promoted_facts s hs
  have hst : s.promoted.stored.indexName = indexNameFor s.aliasName (s.provisioned + 1) := by
    simp [Store.stored, hd]
  refine ⟨?_, ?_, ?_⟩
  · intro n hn
    rw [hidx, List.mem_append] at hn
    rw [ha, hp]
    rcases hn with hn | hn
    · obtain ⟨k, hk, hname⟩ := hs.1 n (List.mem_of_mem_filter hn)
      exact ⟨k, by omega, hname⟩
    · exact ⟨s.provisioned + 1, le_refl _, by simpa using hn⟩
  · intro _
    rw [ha, hp, hst]
    exact ⟨s.provisioned + 1, le_refl _, rfl⟩
  · rw [hal, hst, hidx]
    simp

/-- A call of `ensureIndexes` that runs alone on a settled store, every
request answered, succeeds and leaves a settled store whose version document
names a physical index that exists: the one index the alias maps. -/
theorem ensureIndexes_settles (retryBound : Nat) (force : Bool) (s : Store) (hs : s.Settled) :
    (ensureIndexes retryBound force [] s).2 = none ∧
    (ensureIndexes retryBound force [] s).1.Settled ∧
    (ensureIndexes retryBound force [] s).1.stored.indexName ∈
      (ensureIndexes retryBound force [] s).1.indexes ∧
    (ensureIndexes retryBound force [] s).1.aliased =
      [(ensureIndexes retryBound force [] s).1.stored.indexName] := by
  rw [ensureIndexes_run]
  split
  · rename_i h
    simp only [Bool.and_eq_true, decide_eq_true_eq] at h
    refine ⟨rfl, hs, h.2, ?_⟩
    have := hs.2.2
    rw [if_pos h.2] at this
    exact this
  · obtain ⟨ha, hp, hd, hal, hidx⟩ := promoted_facts s hs
    have hst : s.promoted.stored.indexName = indexNameFor s.aliasName (s.provisioned + 1) := by
      simp [Store.stored, hd]
    refine ⟨rfl, promoted_settled s hs, ?_, ?_⟩
    · simp only [hst, hidx]
      simp
    · simp only [hst, hal]

/-! ## The index lifecycle: the claims -/

/-- C7. On every store, with current document revision `s.revision`, for every
candidate `v` and expected revision `dv`, a conditional write the store
answers returns `(true, nil)` exactly when `dv` is the current revision;
when it is not, it returns `(false, nil)`, no error, and the store (stored
version and revision included) is unchanged.  On a pristine alias (no version
document) `updateVersion(v, 0)` returns `(true, nil)` and a second
`updateVersion(v2, 0)` returns `(false, nil)`. -/
theorem updateVersion_compare_and_swap (s : Store) (v v2 : version) (dv : Nat) :
    ((updateVersion none s v dv).2 = (true, none) ↔ dv = s.revision) ∧
    (dv ≠ s.revision → updateVersion none s v dv = (s, false, none)) ∧
    (s.doc = none →
      (updateVersion none s v 0).2 = (true, none) ∧
      (updateVersion none (updateVersion none s v 0).1 v2 0).2 = (false, none)) := by
  refine ⟨?_, ?_, ?_⟩
  · by_cases h : dv = s.revision <;> simp [updateVersion, h]
  · intro h
    simp [updateVersion, h]
  · intro h
    simp [updateVersion, Store.revision, h]

/-- C8. `getCurrentVersion` reads back what the version store holds: the
stored version and revision, no error; on a pristine alias that is the zero
version with revision 0, and after an `updateVersion(v, dv)` that returned
`(true, nil)` it is `(v, dv + 1, nil)`. -/
theorem getCurrentVersion_reads_back (s0 s : Store) (v : version) (dv : Nat)
    (h0 : s0.doc = none) (hu : (updateVersion none s v dv).2 = (true, none)) :
    getCurrentVersion none s = (s.stored, s.revision, none) ∧
    getCurrentVersion none s0 = ({ count := 0, indexName := "" }, 0, none) ∧
    getCurrentVersion none (updateVersion none s v dv).1 = (v, dv + 1, none) := by
  refine ⟨?_, ?_, ?_⟩
  · cases hd : s.doc <;> simp [getCurrentVersion, Store.stored, Store.revision, hd]
  · simp [getCurrentVersion, h0]
  · by_cases h : dv = s.revision
    · simp [updateVersion, getCurrentVersion, h]
    · simp [updateVersion, h] at hu

/-- C8, at the input of the test: on a pristine alias a physical index is
provisioned, `updateVersion(version{1, index}, 0)` is applied, and the version
read back is `version{1, index}` with revision 1. -/
theorem getCurrentVersion_reads_back_witness :
    getCurrentVersion none (Store.pristine "charms") = ({ count := 0, indexName := "" }, 0, none) ∧
    getCurrentVersion none
      (updateVersion none (newIndex none (Store.pristine "charms")).1
        { count := 1, indexName := "charms-000001" } 0).1 =
      ({ count := 1, indexName := "charms-000001" }, 1, none) :=
  (getCurrentVersion_reads_back (Store.pristine "charms")
    (newIndex none (Store.pristine "charms")).1 { count := 1, indexName := "charms-000001" } 0
    rfl (by decide)).2

/-- C9. Two calls of `ensureIndexes(false)` in sequence on a pristine alias
(no version document, no physical index mapped), every request answered: the
first returns success, provisions one physical index and leaves exactly that
index mapped to the alias, with generation counter 1; the second returns
success and leaves the store as it was: no further index, the alias mapped to
the same single index, the generation counter unchanged. -/
theorem ensureIndexes_twice_idempotent (retryBound : Nat) (s : Store)
    (hp : s.doc = none) (ha : s.ListIndexesForAlias = []) :
    (ensureIndexes retryBound false [] s).2 = none ∧
    (ensureIndexes retryBound false [] s).1.ListIndexesForAlias =
      [indexNameFor s.aliasName (s.provisioned + 1)] ∧
    (ensureIndexes retryBound false [] s).1.indexes =
      s.indexes ++ [indexNameFor s.aliasName (s.provisioned + 1)] ∧
    (ensureIndexes retryBound false [] s).1.stored =
      { count := 1, indexName := indexNameFor s.aliasName (s.provisioned + 1) } ∧
    ensureIndexes retryBound false [] (ensureIndexes retryBound false [] s).1 =
      ((ensureIndexes retryBound false [] s).1, none) := by
  have hst : s.stored = { count := 0, indexName := "" } := by simp [Store.stored, hp]
  have ha2 : s.aliased = [] := ha
  have h1 : ensureIndexes retryBound false [] s =
      ({ s with
          indexes := s.indexes ++ [indexNameFor s.aliasName (s.provisioned + 1)]
          provisioned := s.provisioned + 1
          doc := some ({ count := 1,
                         indexName := indexNameFor s.aliasName (s.provisioned + 1) }, 1)
          aliased := [indexNameFor s.aliasName (s.provisioned + 1)] }, none) := by
    rw [ensureIndexes_run]
    simp [hst, Store.promoted, Store.revision, hp, ha2]
  rw [h1]
  refine ⟨rfl, rfl, rfl, rfl, ?_⟩
  rw [ensureIndexes_run]
  simp [Store.stored, indexNameFor_ne_empty]

/-- C9, on the pristine alias `"charms"`: the first call maps
`"charms-000001"`, the second changes nothing. -/
theorem ensureIndexes_twice_idempotent_witness :
    (ensureIndexes 3 false [] (Store.pristine "charms")).2 = none ∧
    (ensureIndexes 3 false [] (Store.pristine "charms")).1.ListIndexesForAlias =
      ["charms-000001"] ∧
    ensureIndexes 3 false [] (ensureIndexes 3 false [] (Store.pristine "charms")).1 =
      ((ensureIndexes 3 false [] (Store.pristine "charms")).1, none) :=
  have h := ensureIndexes_twice_idempotent 3 (Store.pristine "charms") rfl rfl
  ⟨h.1, h.2.1, h.2.2.2.2⟩

/-- C10. On every store left by a successful `ensureIndexes(false)` (run on a
settled store), a following `ensureIndexes(true)` that runs alone, every
request answered, returns success and leaves exactly one physical index mapped
to the alias, whose name differs from the index mapped before; the generation
counter grows by exactly one, the new index exists, and the physical indexes
are those of before without the previous live index, which is the one
retired, plus the new one. -/
theorem ensureIndexes_force_rotates (retryBound : Nat) (s0 : Store) (hs : s0.Settled)
    (_h1 : (ensureIndexes retryBound false [] s0).2 = none) :
    ∃ old new : String,
      (ensureIndexes retryBound false [] s0).1.ListIndexesForAlias = [old] ∧
      (ensureIndexes retryBound true [] (ensureIndexes retryBound false [] s0).1).2 = none ∧
      (ensureIndexes retryBound true []
        (ensureIndexes retryBound false [] s0).1).1.ListIndexesForAlias = [new] ∧
      new ≠ old ∧
      (ensureIndexes retryBound true [] (ensureIndexes retryBound false [] s0).1).1.stored.count =
        (ensureIndexes retryBound false [] s0).1.stored.count + 1 ∧
      (ensureIndexes retryBound true [] (ensureIndexes retryBound false [] s0).1).1.stored.indexName
        = new ∧
      old ∈ (ensureIndexes retryBound false [] s0).1.indexes ∧
      old ∉ (ensureIndexes retryBound true [] (ensureIndexes retryBound false [] s0).1).1.indexes ∧
      (ensureIndexes retryBound true [] (ensureIndexes retryBound false [] s0).1).1.indexes =
        (ensureIndexes retryBound false [] s0).1.indexes.filter (fun n => n ≠ old) ++ [new] := by
  obtain ⟨-, hs1, hmem, hal⟩ := ensureIndexes_settles retryBound false s0 hs
  generalize (ensureIndexes retryBound false [] s0).1 = s1 at hs1 hmem hal ⊢
  obtain ⟨-, -, hd, hal2, hidx⟩ := promoted_facts s1 hs1
  have hrun : ensureIndexes retryBound true [] s1 = (s1.promoted, none) := by
    rw [ensureIndexes_run]
    simp
  rw [hrun]
  refine ⟨s1.stored.indexName, indexNameFor s1.aliasName (s1.provisioned + 1),
    hal, rfl, hal2, candidate_ne_stored s1 hs1, ?_, ?_, hmem, ?_, hidx⟩
  · simp [Store.stored, hd]
  · simp [Store.stored, hd]
  · rw [hidx]
    simp [List.mem_filter, (candidate_ne_stored s1 hs1).symm]

/-- C10, on the alias `"charms"`: after `ensureIndexes(false)` on the pristine
alias the live index is `"charms-000001"`; `ensureIndexes(true)` replaces it
by `"charms-000002"`. -/
theorem ensureIndexes_force_rotates_witness :
    ∃ old new : String,
      (ensureIndexes 3 false [] (Store.pristine "charms")).1.ListIndexesForAlias = [old] ∧
      (ensureIndexes 3 true [] (ensureIndexes 3 false [] (Store.pristine "charms")).1).2 = none ∧
      (ensureIndexes 3 true []
        (ensureIndexes 3 false [] (Store.pristine "charms")).1).1.ListIndexesForAlias = [new] ∧
      new ≠ old :=
  have h := ensureIndexes_force_rotates 3 (Store.pristine "charms")
    (pristine_settled "charms") (by decide)
  h.elim fun old h => h.elim fun new h => ⟨old, new, h.1, h.2.1, h.2.2.1, h.2.2.2.1⟩

/-! ## Concurrent callers: every caller returns -/

theorem stepsLeft_step (force : Bool) (fault : Option String) (s : Store) (k : Caller) :
    (k.step force fault s).2.stepsLeft ≤ k.stepsLeft - 1 := by
  cases k with
  | read retries =>
    simp only [Caller.step]
    split
    · simp [Caller.stepsLeft]
    · split <;> simp [Caller.stepsLeft]
  | check retries v dv =>
    simp only [Caller.step]
    split <;> simp [Caller.stepsLeft]
  | create retries v dv =>
    simp only [Caller.step]
    split <;> simp [Caller.stepsLeft]
  | cas retries v dv candidate =>
    simp only [Caller.step]
    split <;> simp [Caller.stepsLeft]
  | dropFailed candidate err => simp [Caller.step, Caller.stepsLeft]
  | dropOrphan retries candidate =>
    cases retries with
    | zero => simp [Caller.step, Caller.stepsLeft]
    | succ n =>
      simp only [Caller.step, Caller.stepsLeft]
      omega
  | retarget v candidate =>
    simp only [Caller.step]
    split <;> simp [Caller.stepsLeft]
  | dropPrevious previous => simp [Caller.step, Caller.stepsLeft]
  | done err => simp [Caller.step, Caller.stepsLeft]

theorem isDone_of_stepsLeft (k : Caller) (h : k.stepsLeft = 0) : k.isDone = true := by
  cases k <;> simp [Caller.stepsLeft, Caller.isDone] at h ⊢

theorem step_store {N : Nat} (force : Bool) (fault : Option String) (i : Fin N) (c : Config N) :
    (c.step force fault i).store = ((c.callers i).step force fault c.store).1 := rfl

theorem step_callers_self {N : Nat} (force : Bool) (fault : Option String) (i : Fin N)
    (c : Config N) :
    (c.step force fault i).callers i = ((c.callers i).step force fault c.store).2 := by
  simp [Config.step]

theorem step_callers_other {N : Nat} (force : Bool) (fault : Option String) (i j : Fin N)
    (c : Config N) (h : j ≠ i) : (c.step force fault i).callers j = c.callers j := by
  simp [Config.step, h]

/-- Along any interleaving, whatever the transport does, the bound on the
requests a caller still sends goes down by one with each of its moves. -/
theorem stepsLeft_run {N : Nat} (force : Bool) (sched : List (Fin N × Option String)) :
    ∀ (c : Config N) (i : Fin N),
      ((c.run force sched).callers i).stepsLeft ≤
        (c.callers i).stepsLeft - (sched.map Prod.fst).count i := by
  induction sched with
  | nil => intro c i; simp [Config.run]
  | cons p rest ih =>
    intro c i
    obtain ⟨j, fault⟩ := p
    simp only [Config.run, List.map_cons, List.count_cons]
    have h := ih (c.step force fault j) i
    by_cases hji : j = i
    · subst hji
      rw [step_callers_self] at h
      have h2 := stepsLeft_step force fault c.store (c.callers j)
      simp only [beq_self_eq_true, if_true]
      omega
    · rw [step_callers_other force fault j i c (Ne.symm hji)] at h
      have : (j == i) = false := by simpa using hji
      simp only [this]
      simpa using h

theorem allReturned_of_fair {N : Nat} (force : Bool) (retryBound : Nat) (s : Store)
    (sched : List (Fin N)) (hfair : ∀ i, 5 * retryBound + 7 ≤ sched.count i) :
    ((Config.start N retryBound s).runAnswered force sched).allReturned := by
  intro i
  apply isDone_of_stepsLeft
  have h := stepsLeft_run force (sched.map fun i => (i, none)) (Config.start N retryBound s) i
  have hc : ((sched.map fun i => ((i, none) : Fin N × Option String)).map Prod.fst) = sched := by
    simp [List.map_map, Function.comp_def]
  rw [hc] at h
  have hs : ((Config.start N retryBound s).callers i).stepsLeft = 5 * retryBound + 7 := rfl
  have := hfair i
  unfold Config.runAnswered
  omega
/-! ## Concurrent callers: the invariant -/

theorem inv_start {N : Nat} (retryBound : Nat) (s : Store) (hp : s.doc = none)
    (ha : s.aliased = []) : (Config.start N retryBound s).Inv retryBound where
  ok := fun _ _ => rfl
  fresh := by intro i a h; simp [Config.start, Caller.candidate] at h
  distinct := by intro i j a _ h; simp [Config.start, Caller.candidate] at h
  phase := Or.inl ⟨hp, ha⟩

/-- A config whose store is that of `c` and whose callers are those of `c`
but for caller `i`, which holds no candidate and is not the caller about to
map the alias, keeps the invariant as soon as the new state of `i` is `Ok`. -/
theorem inv_of_quiet_move {N : Nat} (retryBound : Nat) (c c2 : Config N) (i : Fin N)
    (h : c.Inv retryBound) (hs : c2.store = c.store)
    (ho : ∀ j, j ≠ i → c2.callers j = c.callers j)
    (hok : (c2.callers i).Ok retryBound c.store)
    (hcand : (c2.callers i).candidate = none ∨ (c2.callers i).candidate = (c.callers i).candidate)
    (hnr : ∀ w, c.callers i = .retarget { count := 0, indexName := "" } w →
      c2.callers i = .retarget { count := 0, indexName := "" } w) :
    c2.Inv retryBound := by
  have hcand2 : ∀ a, (c2.callers i).candidate = some a → (c.callers i).candidate = some a := by
    intro a ha
    rcases hcand with h0 | h0
    · rw [h0] at ha; cases ha
    · rw [← h0]; exact ha
  refine ⟨?_, ?_, ?_, ?_⟩
  · intro j
    rw [hs]
    by_cases hj : j = i
    · subst hj; exact hok
    · rw [ho j hj]; exact h.ok j
  · intro j a ha
    rw [hs]
    by_cases hj : j = i
    · subst hj; exact h.fresh j a (hcand2 a ha)
    · rw [ho j hj] at ha; exact h.fresh j a ha
  · intro j l a hjl ha
    have ha1 : (c.callers j).candidate = some a := by
      by_cases hj : j = i
      · subst hj; exact hcand2 a ha
      · rw [ho j hj] at ha; exact ha
    have hd := h.distinct j l a hjl ha1
    by_cases hl : l = i
    · subst hl
      intro hl2
      exact hd (hcand2 a hl2)
    · rw [ho l hl]; exact hd
  · rw [hs]
    rcases h.phase with hp | ⟨w, hd, hw, hne, hk, hal⟩
    · exact Or.inl hp
    · refine Or.inr ⟨w, hd, hw, hne, hk, ?_⟩
      rcases hal with hal | ⟨hal, i0, hi0⟩
      · exact Or.inl hal
      · refine Or.inr ⟨hal, i0, ?_⟩
        by_cases h0 : i0 = i
        · subst h0; exact hnr w hi0
        · rw [ho i0 h0]; exact hi0

theorem ok_newIndex (retryBound : Nat) (s : Store) (k : Caller) (h : k.Ok retryBound s) :
    k.Ok retryBound (newIndex none s).1 := by
  cases k <;> simp_all [Caller.Ok, newIndex, Store.stored]

theorem ok_DeleteIndex (retryBound : Nat) (s : Store) (k : Caller) (name : String)
    (h : k.Ok retryBound s) (hc : k.candidate ≠ some name) :
    k.Ok retryBound (DeleteIndex none s name).1 := by
  cases k <;> simp_all [Caller.Ok, DeleteIndex, Store.stored, Caller.candidate, List.mem_filter]

theorem ok_applied (retryBound : Nat) (s : Store) (k : Caller) (name : String)
    (hp : s.doc = none) (h : k.Ok retryBound s) (hc : k.candidate ≠ some name) :
    k.Ok retryBound
      (updateVersion none s { count := 0 + 1, indexName := name } 0).1 := by
  have hu : updateVersion none s { count := 0 + 1, indexName := name } 0 =
      ({ s with doc := some ({ count := 1, indexName := name }, 1) }, true, none) := by
    simp [updateVersion, Store.revision, hp]
  rw [hu]
  cases k <;> simp_all [Caller.Ok, Store.stored, Caller.candidate]

theorem ok_retargetAlias (retryBound : Nat) (s : Store) (k : Caller) (w : String)
    (h : k.Ok retryBound s) (hc : k.candidate ≠ some s.stored.indexName) :
    k.Ok retryBound (retargetAlias s "" w) := by
  cases k <;> simp_all [Caller.Ok, retargetAlias, Store.stored, Caller.candidate]

theorem inv_step_read {N : Nat} (retryBound : Nat) (c : Config N) (i : Fin N) (n : Nat)
    (h : c.Inv retryBound) (hk : c.callers i = .read n) :
    (c.step false none i).Inv retryBound := by
  have hok := h.ok i
  rw [hk] at hok
  rcases h.phase with ⟨hp, -⟩ | ⟨w, hd, -, hne, -, -⟩
  · have hst : (Caller.read n).step false none c.store =
        (c.store, .create n { count := 0, indexName := "" } 0) := by
      simp [Caller.step, getCurrentVersion, hp]
    apply inv_of_quiet_move retryBound c _ i h
    · rw [step_store, hk, hst]
    · intro j hj; exact step_callers_other _ _ _ _ _ hj
    · rw [step_callers_self, hk, hst]
      exact ⟨hok hp, rfl, rfl⟩
    · left; rw [step_callers_self, hk, hst]; rfl
    · intro w hw; rw [hk] at hw; cases hw
  · have hst : (Caller.read n).step false none c.store =
        (c.store, .check n { count := 1, indexName := w } 1) := by
      simp [Caller.step, getCurrentVersion, hd, hne]
    apply inv_of_quiet_move retryBound c _ i h
    · rw [step_store, hk, hst]
    · intro j hj; exact step_callers_other _ _ _ _ _ hj
    · rw [step_callers_self, hk, hst]
      simp [Caller.Ok, Store.stored, hd]
    · left; rw [step_callers_self, hk, hst]; rfl
    · intro w hw; rw [hk] at hw; cases hw

theorem inv_step_check {N : Nat} (retryBound : Nat) (c : Config N) (i : Fin N) (n : Nat)
    (v : version) (dv : Nat) (h : c.Inv retryBound) (hk : c.callers i = .check n v dv) :
    (c.step false none i).Inv retryBound := by
  have hok := h.ok i
  rw [hk] at hok
  obtain ⟨hdoc, hv⟩ := hok
  rcases h.phase with ⟨hp, -⟩ | ⟨w, hd, hw, -, -, -⟩
  · exact absurd hp hdoc
  · have hvw : v.indexName ∈ c.store.indexes := by
      rw [hv]; simpa [Store.stored, hd] using hw
    have hst : (Caller.check n v dv).step false none c.store = (c.store, .done none) := by
      simp [Caller.step, hvw]
    apply inv_of_quiet_move retryBound c _ i h
    · rw [step_store, hk, hst]
    · intro j hj; exact step_callers_other _ _ _ _ _ hj
    · rw [step_callers_self, hk, hst]
      exact ⟨rfl, hdoc⟩
    · left; rw [step_callers_self, hk, hst]; rfl
    · intro w hw; rw [hk] at hw; cases hw

theorem inv_step_done {N : Nat} (retryBound : Nat) (c : Config N) (i : Fin N)
    (err : Option IndexError) (h : c.Inv retryBound) (hk : c.callers i = .done err) :
    (c.step false none i).Inv retryBound := by
  have hok := h.ok i
  have hst : (Caller.done err).step false none c.store = (c.store, .done err) := rfl
  apply inv_of_quiet_move retryBound c _ i h
  · rw [step_store, hk, hst]
  · intro j hj; exact step_callers_other _ _ _ _ _ hj
  · rw [step_callers_self, hk, hst]
    rw [hk] at hok; exact hok
  · left; rw [step_callers_self, hk, hst]; rfl
  · intro w hw; rw [hk] at hw; cases hw

/-- A conditional write that comes after another caller has won: it is not
applied and the caller goes on to delete its candidate. -/
theorem inv_step_cas_lost {N : Nat} (retryBound : Nat) (c : Config N) (i : Fin N) (n : Nat)
    (v : version) (dv : Nat) (candidate : String) (h : c.Inv retryBound)
    (hk : c.callers i = .cas n v dv candidate) (hdoc : c.store.doc ≠ none) :
    (c.step false none i).Inv retryBound := by
  have hok := h.ok i
  rw [hk] at hok
  obtain ⟨hn, hv, hdv, hmem, hcs⟩ := hok
  rcases h.phase with ⟨hp, -⟩ | ⟨w, hd, -, -, -, -⟩
  · exact absurd hp hdoc
  · have hst : (Caller.cas n v dv candidate).step false none c.store =
        (c.store, .dropOrphan n candidate) := by
      simp [Caller.step, updateVersion, Store.revision, hd, hdv]
    apply inv_of_quiet_move retryBound c _ i h
    · rw [step_store, hk, hst]
    · intro j hj; exact step_callers_other _ _ _ _ _ hj
    · rw [step_callers_self, hk, hst]
      exact ⟨hn, hdoc, hcs⟩
    · right; rw [step_callers_self, hk, hst]; rfl
    · intro w hw; rw [hk] at hw; cases hw

theorem inv_step_create {N : Nat} (retryBound : Nat) (c : Config N) (i : Fin N) (n : Nat)
    (v : version) (dv : Nat) (h : c.Inv retryBound) (hk : c.callers i = .create n v dv) :
    (c.step false none i).Inv retryBound := by
  have hok := h.ok i
  rw [hk] at hok
  obtain ⟨hn, hv, hdv⟩ := hok
  have hst : (Caller.create n v dv).step false none c.store =
      ((newIndex none c.store).1,
        .cas n v dv (indexNameFor c.store.aliasName (c.store.provisioned + 1))) := by
    simp [Caller.step, newIndex]
  have hself : (c.step false none i).callers i =
      .cas n v dv (indexNameFor c.store.aliasName (c.store.provisioned + 1)) := by
    rw [step_callers_self, hk, hst]
  have hstore : (c.step false none i).store = (newIndex none c.store).1 := by
    rw [step_store, hk, hst]
  have hother : ∀ j, j ≠ i → (c.step false none i).callers j = c.callers j :=
    fun j hj => step_callers_other _ _ _ _ _ hj
  have hnew : ∀ j, (c.callers j).candidate ≠
      some (indexNameFor c.store.aliasName (c.store.provisioned + 1)) := by
    intro j hj
    obtain ⟨k, hk1, hk2⟩ := h.fresh j _ hj
    have := indexNameFor_inj _ _ _ hk2
    omega
  have hprov : (newIndex none c.store).1.provisioned = c.store.provisioned + 1 := rfl
  have halias : (newIndex none c.store).1.aliasName = c.store.aliasName := rfl
  refine ⟨?_, ?_, ?_, ?_⟩
  · intro j
    rw [hstore]
    by_cases hj : j = i
    · subst hj
      rw [hself]
      refine ⟨hn, hv, hdv, by simp [newIndex], ?_⟩
      have hs : (newIndex none c.store).1.stored = c.store.stored := rfl
      rw [hs]
      rcases h.phase with ⟨hp, -⟩ | ⟨w, hd, -, -, ⟨k, hk1, hk2⟩, -⟩
      · simp only [Store.stored, hp]
        exact indexNameFor_ne_empty _ _
      · simp only [Store.stored, hd]
        intro heq
        have := indexNameFor_inj _ _ _ (heq.trans hk2)
        omega
    · rw [hother j hj]
      exact ok_newIndex _ _ _ (h.ok j)
  · intro j a ha
    rw [hstore, hprov, halias]
    by_cases hj : j = i
    · subst hj
      rw [hself] at ha
      simp only [Caller.candidate, Option.some.injEq] at ha
      exact ⟨c.store.provisioned + 1, le_refl _, ha.symm⟩
    · rw [hother j hj] at ha
      obtain ⟨k, hk1, hk2⟩ := h.fresh j a ha
      exact ⟨k, by omega, hk2⟩
  · intro j l a hjl ha
    by_cases hj : j = i
    · subst hj
      rw [hself] at ha
      simp only [Caller.candidate, Option.some.injEq] at ha
      rw [hother l (Ne.symm hjl), ← ha]
      exact hnew l
    · rw [hother j hj] at ha
      by_cases hl : l = i
      · subst hl
        rw [hself]
        simp only [Caller.candidate, ne_eq, Option.some.injEq]
        intro heq
        exact hnew j (heq ▸ ha)
      · rw [hother l hl]
        exact h.distinct j l a hjl ha
  · rw [hstore]
    rcases h.phase with hp | ⟨w, hd, hw, hne, ⟨k, hk1, hk2⟩, hal⟩
    · exact Or.inl hp
    · refine Or.inr ⟨w, hd, ?_, hne, ⟨k, by rw [hprov]; omega, hk2⟩, ?_⟩
      · simp [newIndex, hw]
      · rcases hal with hal | ⟨hal, i0, hi0⟩
        · exact Or.inl hal
        · refine Or.inr ⟨hal, i0, ?_⟩
          have h0 : i0 ≠ i := by
            intro h0; subst h0; rw [hk] at hi0; cases hi0
          rw [hother i0 h0]; exact hi0

/-- The conditional write that finds the alias still pristine: it is applied,
and its caller is the one that will map the alias. -/
theorem inv_step_cas_won {N : Nat} (retryBound : Nat) (c : Config N) (i : Fin N) (n : Nat)
    (v : version) (dv : Nat) (candidate : String) (h : c.Inv retryBound)
    (hk : c.callers i = .cas n v dv candidate) (hp : c.store.doc = none) :
    (c.step false none i).Inv retryBound := by
  have hok := h.ok i
  rw [hk] at hok
  obtain ⟨-, hv, hdv, hmem, -⟩ := hok
  subst hv hdv
  have hal : c.store.aliased = [] := by
    rcases h.phase with ⟨-, ha⟩ | ⟨w, hd, -⟩
    · exact ha
    · rw [hp] at hd; cases hd
  have hu : updateVersion none c.store { count := 0 + 1, indexName := candidate } 0 =
      ({ c.store with doc := some ({ count := 1, indexName := candidate }, 1) }, true, none) := by
    simp [updateVersion, Store.revision, hp]
  have hst : (Caller.cas n { count := 0, indexName := "" } 0 candidate).step false none c.store =
      ((updateVersion none c.store { count := 0 + 1, indexName := candidate } 0).1,
        .retarget { count := 0, indexName := "" } candidate) := by
    simp [Caller.step, hu]
  have hself : (c.step false none i).callers i =
      .retarget { count := 0, indexName := "" } candidate := by
    rw [step_callers_self, hk, hst]
  have hstore : (c.step false none i).store =
      (updateVersion none c.store { count := 0 + 1, indexName := candidate } 0).1 := by
    rw [step_store, hk, hst]
  have hother : ∀ j, j ≠ i → (c.step false none i).callers j = c.callers j :=
    fun j hj => step_callers_other _ _ _ _ _ hj
  have hci : (c.callers i).candidate = some candidate := by rw [hk]; rfl
  have hfresh := h.fresh i candidate hci
  refine ⟨?_, ?_, ?_, ?_⟩
  · intro j
    rw [hstore]
    by_cases hj : j = i
    · subst hj
      rw [hself, hu]
      exact ⟨rfl, by simp, by simp [Store.stored], hal⟩
    · rw [hother j hj]
      exact ok_applied _ _ _ _ hp (h.ok j) (h.distinct i j candidate (Ne.symm hj) hci)
  · intro j a ha
    rw [hstore, hu]
    by_cases hj : j = i
    · subst hj
      rw [hself] at ha
      exact h.fresh j a (by rw [hci]; exact ha)
    · rw [hother j hj] at ha
      exact h.fresh j a ha
  · intro j l a hjl ha
    have ha1 : (c.callers j).candidate = some a := by
      by_cases hj : j = i
      · subst hj; rw [hself] at ha; rw [hci]; exact ha
      · rw [hother j hj] at ha; exact ha
    have hd := h.distinct j l a hjl ha1
    by_cases hl : l = i
    · subst hl; rw [hself]; rw [hci] at hd; exact hd
    · rw [hother l hl]; exact hd
  · rw [hstore, hu]
    refine Or.inr ⟨candidate, rfl, hmem, ?_, hfresh, Or.inr ⟨hal, i, hself⟩⟩
    obtain ⟨k, -, hk2⟩ := hfresh
    rw [hk2]
    exact indexNameFor_ne_empty _ _

theorem inv_step_dropOrphan {N : Nat} (retryBound : Nat) (hr : 1 ≤ retryBound) (c : Config N)
    (i : Fin N) (n : Nat) (candidate : String) (h : c.Inv retryBound)
    (hk : c.callers i = .dropOrphan n candidate) :
    (c.step false none i).Inv retryBound := by
  have hok := h.ok i
  rw [hk] at hok
  obtain ⟨hn, hdoc, hcs⟩ := hok
  obtain ⟨m, hm⟩ : ∃ m, n = m + 1 := ⟨n - 1, by omega⟩
  subst hm
  have hst : (Caller.dropOrphan (m + 1) candidate).step false none c.store =
      ((DeleteIndex none c.store candidate).1, .read m) := rfl
  have hself : (c.step false none i).callers i = .read m := by
    rw [step_callers_self, hk, hst]
  have hstore : (c.step false none i).store = (DeleteIndex none c.store candidate).1 := by
    rw [step_store, hk, hst]
  have hother : ∀ j, j ≠ i → (c.step false none i).callers j = c.callers j :=
    fun j hj => step_callers_other _ _ _ _ _ hj
  have hci : (c.callers i).candidate = some candidate := by rw [hk]; rfl
  have hdoc2 : (DeleteIndex none c.store candidate).1.doc = c.store.doc := rfl
  refine ⟨?_, ?_, ?_, ?_⟩
  · intro j
    rw [hstore]
    by_cases hj : j = i
    · subst hj
      rw [hself]
      intro hnone
      rw [hdoc2] at hnone
      exact absurd hnone hdoc
    · rw [hother j hj]
      exact ok_DeleteIndex _ _ _ _ (h.ok j) (h.distinct i j candidate (Ne.symm hj) hci)
  · intro j a ha
    rw [hstore]
    by_cases hj : j = i
    · subst hj; rw [hself] at ha; cases ha
    · rw [hother j hj] at ha
      exact h.fresh j a ha
  · intro j l a hjl ha
    by_cases hj : j = i
    · subst hj; rw [hself] at ha; cases ha
    · rw [hother j hj] at ha
      by_cases hl : l = i
      · subst hl; rw [hself]; simp [Caller.candidate]
      · rw [hother l hl]; exact h.distinct j l a hjl ha
  · rw [hstore]
    rcases h.phase with ⟨hp, -⟩ | ⟨w, hd, hw, hne, hfr, hal⟩
    · exact absurd hp hdoc
    · have hwc : w ≠ candidate := by
        intro heq
        apply hcs
        simp [Store.stored, hd, heq]
      refine Or.inr ⟨w, hd, ?_, hne, hfr, ?_⟩
      · simp [DeleteIndex, List.mem_filter, hw, hwc]
      · rcases hal with hal | ⟨hal, i0, hi0⟩
        · left
          simp [DeleteIndex, hal, hwc]
        · refine Or.inr ⟨by simp [DeleteIndex, hal], i0, ?_⟩
          have h0 : i0 ≠ i := by
            intro h0; subst h0; rw [hk] at hi0; cases hi0
          rw [hother i0 h0]; exact hi0

theorem inv_step_retarget {N : Nat} (retryBound : Nat) (c : Config N) (i : Fin N)
    (v : version) (candidate : String) (h : c.Inv retryBound)
    (hk : c.callers i = .retarget v candidate) :
    (c.step false none i).Inv retryBound := by
  have hok := h.ok i
  rw [hk] at hok
  obtain ⟨hv, hdoc, hcs, hal⟩ := hok
  subst hv
  have hst : (Caller.retarget { count := 0, indexName := "" } candidate).step false none
      c.store = (retargetAlias c.store "" candidate, .done none) := by
    simp [Caller.step]
  have hself : (c.step false none i).callers i = .done none := by
    rw [step_callers_self, hk, hst]
  have hstore : (c.step false none i).store = retargetAlias c.store "" candidate := by
    rw [step_store, hk, hst]
  have hother : ∀ j, j ≠ i → (c.step false none i).callers j = c.callers j :=
    fun j hj => step_callers_other _ _ _ _ _ hj
  have hci : (c.callers i).candidate = some candidate := by rw [hk]; rfl
  refine ⟨?_, ?_, ?_, ?_⟩
  · intro j
    rw [hstore]
    by_cases hj : j = i
    · subst hj
      rw [hself]
      exact ⟨rfl, hdoc⟩
    · rw [hother j hj]
      refine ok_retargetAlias _ _ _ _ (h.ok j) ?_
      rw [← hcs]
      exact h.distinct i j candidate (Ne.symm hj) hci
  · intro j a ha
    rw [hstore]
    by_cases hj : j = i
    · subst hj; rw [hself] at ha; cases ha
    · rw [hother j hj] at ha
      exact h.fresh j a ha
  · intro j l a hjl ha
    by_cases hj : j = i
    · subst hj; rw [hself] at ha; cases ha
    · rw [hother j hj] at ha
      by_cases hl : l = i
      · subst hl; rw [hself]; simp [Caller.candidate]
      · rw [hother l hl]; exact h.distinct j l a hjl ha
  · rw [hstore]
    rcases h.phase with ⟨hp, -⟩ | ⟨w, hd, hw, hne, hfr, -⟩
    · exact absurd hp hdoc
    · have hwc : candidate = w := by rw [hcs]; simp [Store.stored, hd]
      subst hwc
      exact Or.inr ⟨candidate, hd, hw, hne, hfr, Or.inl (by simp [retargetAlias, hal])⟩

/-- The invariant is kept by every answered request of every caller, as long
as the retry bound allows one retry. -/
theorem inv_step {N : Nat} (retryBound : Nat) (hr : 1 ≤ retryBound) (c : Config N) (i : Fin N)
    (h : c.Inv retryBound) : (c.step false none i).Inv retryBound := by
  cases hk : c.callers i with
  | read n => exact inv_step_read retryBound c i n h hk
  | check n v dv => exact inv_step_check retryBound c i n v dv h hk
  | create n v dv => exact inv_step_create retryBound c i n v dv h hk
  | cas n v dv candidate =>
    by_cases hp : c.store.doc = none
    · exact inv_step_cas_won retryBound c i n v dv candidate h hk hp
    · exact inv_step_cas_lost retryBound c i n v dv candidate h hk hp
  | dropFailed candidate err =>
    have := h.ok i
    rw [hk] at this
    exact this.elim
  | dropOrphan n candidate => exact inv_step_dropOrphan retryBound hr c i n candidate h hk
  | retarget v candidate => exact inv_step_retarget retryBound c i v candidate h hk
  | dropPrevious previous =>
    have := h.ok i
    rw [hk] at this
    exact this.elim
  | done err => exact inv_step_done retryBound c i err h hk

theorem inv_run {N : Nat} (retryBound : Nat) (hr : 1 ≤ retryBound) (sched : List (Fin N)) :
    ∀ c : Config N, c.Inv retryBound → (c.runAnswered false sched).Inv retryBound := by
  induction sched with
  | nil => intro c h; exact h
  | cons i rest ih =>
    intro c h
    exact ih (c.step false none i) (inv_step retryBound hr c i h)

/-- Once every caller has returned under the invariant, the alias maps exactly
the index the version document names, the generation is 1, and every caller
returned success. -/
theorem inv_allReturned {N : Nat} (retryBound : Nat) (hN : 1 ≤ N) (c : Config N)
    (h : c.Inv retryBound) (hall : c.allReturned) :
    c.store.ListIndexesForAlias = [c.store.stored.indexName] ∧
    c.store.stored.count = 1 ∧ c.store.revision = 1 ∧
    c.store.stored.indexName ∈ c.store.indexes ∧
    ∀ i, c.callers i = .done none := by
  have hdone : ∀ i, c.callers i = .done none := by
    intro i
    have h1 := hall i
    have h2 := h.ok i
    cases hk : c.callers i <;> rw [hk] at h1 h2 <;> simp [Caller.isDone] at h1
    rw [h2.1]
  have hdoc : c.store.doc ≠ none := by
    have h2 := h.ok ⟨0, hN⟩
    rw [hdone ⟨0, hN⟩] at h2
    exact h2.2
  rcases h.phase with ⟨hp, -⟩ | ⟨w, hd, hw, -, -, hal⟩
  · exact absurd hp hdoc
  · have hst : c.store.stored = { count := 1, indexName := w } := by simp [Store.stored, hd]
    refine ⟨?_, by rw [hst], by simp [Store.revision, hd], by rw [hst]; exact hw, hdone⟩
    rcases hal with hal | ⟨-, i0, hi0⟩
    · rw [hst]; exact hal
    · rw [hdone i0] at hi0; cases hi0

/-- A caller that runs alone through the requests of the protocol ends, after
at most six of them, where `ensureIndexes` ends: same store, same result. -/
theorem runAlone_eq_ensureIndexes (retryBound : Nat) (force : Bool) (s : Store) :
    Caller.runAlone force 6 (s, .read retryBound) =
      ((ensureIndexes retryBound force [] s).1, .done (ensureIndexes retryBound force [] s).2) := by
  rw [ensureIndexes_run]
  cases hdoc : s.doc with
  | none =>
    cases force <;>
      simp [Caller.runAlone, Caller.step, getCurrentVersion, newIndex, updateVersion,
        Store.revision, Store.stored, Store.promoted, retargetAlias, hdoc]
  | some p =>
    obtain ⟨v, rev⟩ := p
    by_cases hne : v.indexName = ""
    · cases force <;>
        simp [Caller.runAlone, Caller.step, getCurrentVersion, newIndex, updateVersion,
          Store.revision, Store.stored, Store.promoted, retargetAlias, hdoc, hne]
    · by_cases hmem : v.indexName ∈ s.indexes
      · cases force <;>
          simp [Caller.runAlone, Caller.step, getCurrentVersion, newIndex, updateVersion,
            Store.revision, Store.stored, Store.promoted, retargetAlias, hdoc, hne, hmem]
      · cases force <;>
          simp [Caller.runAlone, Caller.step, getCurrentVersion, newIndex, updateVersion,
            Store.revision, Store.stored, Store.promoted, retargetAlias, hdoc, hne, hmem]

/-! ## Concurrent callers: the claim -/

/-- C11. For every `N ≥ 1` callers of `ensureIndexes(false)` racing on a
pristine alias (no version document, no physical index mapped), with a retry
bound that allows one retry and every request answered: along every
interleaving in which each caller gets `5 * retryBound + 7` moves, all calls
return; and along every interleaving, once all calls have returned, exactly
one physical index is mapped to the alias, it exists and is the one the
version document names, the generation counter is 1, and every call returned
success, the callers that lost the conditional write included. -/
theorem ensureIndexes_concurrent (N retryBound : Nat) (s : Store) (hN : 1 ≤ N)
    (hr : 1 ≤ retryBound) (hp : s.doc = none) (ha : s.ListIndexesForAlias = []) :
    (∀ sched : List (Fin N), (∀ i, 5 * retryBound + 7 ≤ sched.count i) →
      ((Config.start N retryBound s).runAnswered false sched).allReturned) ∧
    (∀ sched : List (Fin N),
      ((Config.start N retryBound s).runAnswered false sched).allReturned →
      ∃ name : String,
        ((Config.start N retryBound s).runAnswered false sched).store.ListIndexesForAlias =
          [name] ∧
        name ∈ ((Config.start N retryBound s).runAnswered false sched).store.indexes ∧
        ((Config.start N retryBound s).runAnswered false sched).store.stored =
          { count := 1, indexName := name } ∧
        ∀ i, ((Config.start N retryBound s).runAnswered false sched).callers i = .done none) := by
  refine ⟨fun sched hfair => allReturned_of_fair false retryBound s sched hfair, ?_⟩
  intro sched hall
  have hinv := inv_run retryBound hr sched _ (inv_start (N := N) retryBound s hp ha)
  obtain ⟨h1, h2, -, h4, h5⟩ := inv_allReturned retryBound hN _ hinv hall
  refine ⟨_, h1, h4, ?_, h5⟩
  generalize ((Config.start N retryBound s).runAnswered false sched).store.stored = v at h2 ⊢
  cases v
  simp_all

/-- C11, on the alias `"charms"` with two callers and one retry: caller 0
provisions `"charms-000001"`, wins the conditional write and maps the alias;
caller 1 provisions `"charms-000002"`, loses the write, deletes its candidate,
reads again, finds the live index and returns success. -/
theorem ensureIndexes_concurrent_witness :
    ((Config.start 2 1 (Store.pristine "charms")).runAnswered false
      [0, 1, 0, 1, 0, 1, 0, 1, 1, 1]).store =
      { aliasName := "charms", doc := some ({ count := 1, indexName := "charms-000001" }, 1),
        indexes := ["charms-000001"], aliased := ["charms-000001"], provisioned := 2 } ∧
    ∃ name : String,
      ((Config.start 2 1 (Store.pristine "charms")).runAnswered false
        [0, 1, 0, 1, 0, 1, 0, 1, 1, 1]).store.ListIndexesForAlias = [name] ∧
      ((Config.start 2 1 (Store.pristine "charms")).runAnswered false
        [0, 1, 0, 1, 0, 1, 0, 1, 1, 1]).store.stored = { count := 1, indexName := name } ∧
      ∀ i, ((Config.start 2 1 (Store.pristine "charms")).runAnswered false
        [0, 1, 0, 1, 0, 1, 0, 1, 1, 1]).callers i = .done none :=
  have h := (ensureIndexes_concurrent 2 1 (Store.pristine "charms") (by decide) (by decide)
    rfl rfl).2 [0, 1, 0, 1, 0, 1, 0, 1, 1, 1] (by unfold Config.allReturned; decide)
  ⟨by decide, h.elim fun name h => ⟨name, h.1, h.2.2.1, h.2.2.2⟩⟩

end Charmstore
